import Mathlib

/-!
# A verification of the `bytevec` byte-serialization library

This file gives a shallow embedding of the `bytevec` Rust crate
(`src/traits.rs`, `src/errors.rs`, `src/impls/mod.rs`,
`src/impls/primitives.rs`, `src/impls/collections.rs`) and proves
properties of the encode/decode contract.

Modelling conventions:
* A byte buffer (`Vec<u8>` / `&[u8]`) is a `List Nat` whose entries are < 256.
* The generic `Size` parameter (`u8`/`u16`/`u32`/`u64`) is represented by its
  byte width `w` (`Size::get_size_of()`), so `Size::max_value()` is
  `2 ^ (8 * w) - 1`.
* Platform `usize` arithmetic is 64-bit; additions and multiplications that
  the Rust source performs unchecked on `usize` are taken modulo `2 ^ 64`
  exactly where the source can overflow (release-mode wrapping semantics).
* A Rust function outcome is `RtResult α`: a success, a returned
  `ByteVecError`, or a `panic` (out-of-bounds slice index / unreachable
  arithmetic), mirroring the three ways a Rust body can end.
-/

set_option maxRecDepth 8000

namespace Bytevec

/-- `usize::MAX + 1` on the 64-bit platform the crate targets. -/
def usizeMod : Nat := 2 ^ 64

/-- `Size::max_value().as_usize()` for a size representation of byte width `w`. -/
def maxVal (w : Nat) : Nat := 2 ^ (8 * w) - 1

/-- `BVSize::checked_add` (from `src/impls/mod.rs`): `a.checked_add(b)`
on the unsigned integer of byte width `w`. -/
def cadd (w a b : Nat) : Option Nat :=
  if a + b ≤ maxVal w then some (a + b) else none

/-- The little-endian byte string of width `w` for the value `n`
(`transmute(self.to_le())` in `src/impls/primitives.rs`). -/
def leBytes : Nat → Nat → List Nat
  | 0, _ => []
  | w + 1, n => n % 256 :: leBytes w (n / 256)

/-- Read back a little-endian byte string as a natural number
(`<$t>::from_le(transmute(t_bytes))`). -/
def leToNat : List Nat → Nat
  | [] => 0
  | b :: rest => b + 256 * leToNat rest

/-- The two's-complement interpretation of the bit pattern `n` as a signed
integer of byte width `w` (the meaning of `transmute` into `i8`..`i64`). -/
def toSigned (w n : Nat) : Int :=
  if n < 2 ^ (8 * w - 1) then (n : Int) else (n : Int) - 2 ^ (8 * w)

/-- `BVExpectedSize` (named `BVWantedSize` in an earlier revision of
`src/errors.rs`): the expected-size description inside a decode size error. -/
inductive BVExpectedSize where
  | MoreThan (n : Nat)
  | LessOrEqualThan (n : Nat)
  | EqualTo (n : Nat)
  deriving DecidableEq, Repr

/-- The detail carried by `std::str::Utf8Error`: index of the first byte of
the first invalid sequence. -/
structure Utf8Error where
  validUpTo : Nat
  deriving DecidableEq, Repr

/-- `ByteVecError` from `src/errors.rs`. -/
inductive ByteVecError where
  | StringDecodeUtf8Error (e : Utf8Error)
  | BadSizeDecodeError (expected : BVExpectedSize) (actual : Nat)
  | OverflowError
  deriving DecidableEq, Repr

/-- The outcome of running a Rust function body: a returned value, a
returned `Err`, or a panic (out-of-bounds slicing or arithmetic overflow in
debug mode). -/
inductive RtResult (α : Type) where
  | ok (a : α)
  | err (e : ByteVecError)
  | panic
  deriving DecidableEq, Repr

/-- The types for which the crate implements `ByteEncodable`/`ByteDecodable`
(`tU k` is the unsigned integer of byte width `k`, `tI k` the signed one). -/
inductive Ty where
  | tU (width : Nat)
  | tI (width : Nat)
  | tF32
  | tF64
  | tChar
  | tStr
  | tVec (t : Ty)
  | tSet (t : Ty)
  | tMap (k v : Ty)
  | tTuple (ts : List Ty)
  | tUnit
  deriving Repr

/-- Values of the crate's supported types.  A `HashSet` is represented by
the list of its elements in iteration order; a `HashMap` by the list of its
`(key, value)` pairs — each pair a 2-tuple value — in iteration order.
Floats are carried as their bit patterns, `char` as its scalar value. -/
inductive Val where
  | vU (width n : Nat)
  | vI (width : Nat) (i : Int)
  | vF32 (bits : Nat)
  | vF64 (bits : Nat)
  | vChar (c : Nat)
  | vStr (s : List Nat)
  | vVec (l : List Val)
  | vSet (l : List Val)
  | vMap (l : List Val)
  | vTuple (l : List Val)
  | vUnit
  deriving Repr

mutual

/-- `ByteEncodable::get_size::<Size>` for a size representation of byte
width `w`, as implemented in `src/impls/primitives.rs` (fixed widths),
`src/impls/collections.rs` (`str`: the byte length when it fits;
collections: fold of `checked_add` over element sizes plus one size field
per element, plus a final count field; tuples of arity 2 and more: the
same fold without the count field; `()`: zero).  A 1-tuple is special: the
source's `(A,)` impl reads `(&(&self.0)).get_size::<Size>()` — the missing
tuple comma makes `(&(&self.0))` an `&&A`, so method resolution autoderefs
to the bare element's `get_size`, never reaching the `&'a (&'a A,)` impl
that would add the size-field width. -/
def get_size (w : Nat) : Val → Option Nat
  | .vU width _ => some width
  | .vI width _ => some width
  | .vF32 _ => some 4
  | .vF64 _ => some 8
  | .vChar _ => some 4
  | .vStr s => if s.length ≤ maxVal w then some s.length else none
  | .vVec l => (sizeAcc w l (some 0)).bind fun tot => cadd w tot w
  | .vSet l => (sizeAcc w l (some 0)).bind fun tot => cadd w tot w
  | .vMap l => (sizeAcc w l (some 0)).bind fun tot => cadd w tot w
  | .vTuple [] => some 0
  | .vTuple [e] => get_size w e
  | .vTuple (a :: b :: l) => sizeAcc w (a :: b :: l) (some 0)
  | .vUnit => some 0

/-- The accumulation loop shared by collection and tuple `get_size`: for
each element, `acc.checked_add(elem_size).checked_add(Size::get_size_of())`,
propagating `None`. -/
def sizeAcc (w : Nat) : List Val → Option Nat → Option Nat
  | [], acc => acc
  | e :: rest, acc =>
    sizeAcc w rest
      (acc.bind fun a => (get_size w e).bind fun s =>
        (cadd w a s).bind fun t => cadd w t w)

end

/-- `get_size` of the three hash-based / vector collections shares one body
(`collection_encode_impl!`): name it once. -/
def colSize (w : Nat) (l : List Val) : Option Nat :=
  (sizeAcc w l (some 0)).bind fun tot => cadd w tot w

theorem get_size_vVec (w : Nat) (l : List Val) :
    get_size w (.vVec l) = colSize w l := rfl

theorem get_size_vSet (w : Nat) (l : List Val) :
    get_size w (.vSet l) = colSize w l := rfl

theorem get_size_vMap (w : Nat) (l : List Val) :
    get_size w (.vMap l) = colSize w l := rfl

/-- Functorial action on `RtResult` (plumbing for the `try!`-style
propagation of errors). -/
def mapRt {α β : Type} (f : α → β) : RtResult α → RtResult β
  | .ok a => .ok (f a)
  | .err e => .err e
  | .panic => .panic

mutual

/-- `ByteEncodable::encode::<Size>` for a size representation of byte width
`w`.  Primitives: the little-endian bytes of the value
(`transmute(self.to_le())`); `str`/`String`: the raw bytes with no length
field; collections (`collection_encode_impl!`): overflow error when
`get_size` is absent, otherwise the element count, then every element's
size field, then every element's body; tuples of arity 2 and more: every
position's size field then every position's body, with no count; a 1-tuple
delegates to its bare element (the source's `(&(&self.0)).encode`, an
`&&A`, autoderefs to the element and writes no size field);
`()`: the `Size` encoding of 0. -/
def encode (w : Nat) : Val → RtResult (List Nat)
  | .vU width n => .ok (leBytes width n)
  | .vI width i => .ok (leBytes width (i % (2 ^ (8 * width))).toNat)
  | .vF32 bits => .ok (leBytes 4 bits)
  | .vF64 bits => .ok (leBytes 8 bits)
  | .vChar c => .ok (leBytes 4 c)
  | .vStr s =>
    if s.length ≤ maxVal w then .ok s else .err .OverflowError
  | .vVec l =>
    match colSize w l with
    | none => .err .OverflowError
    | some _ =>
      mapRt
        (fun bodies =>
          leBytes w l.length ++
            (l.map fun e => leBytes w ((get_size w e).getD 0)).flatten ++
            bodies.flatten)
        (encodeList w l)
  | .vSet l =>
    match colSize w l with
    | none => .err .OverflowError
    | some _ =>
      mapRt
        (fun bodies =>
          leBytes w l.length ++
            (l.map fun e => leBytes w ((get_size w e).getD 0)).flatten ++
            bodies.flatten)
        (encodeList w l)
  | .vMap l =>
    match colSize w l with
    | none => .err .OverflowError
    | some _ =>
      mapRt
        (fun bodies =>
          leBytes w l.length ++
            (l.map fun e => leBytes w ((get_size w e).getD 0)).flatten ++
            bodies.flatten)
        (encodeList w l)
  | .vTuple [] => .ok []
  | .vTuple [e] => encode w e
  | .vTuple (a :: b :: l) =>
    match sizeAcc w (a :: b :: l) (some 0) with
    | none => .err .OverflowError
    | some _ =>
      mapRt
        (fun bodies =>
          ((a :: b :: l).map fun e => leBytes w ((get_size w e).getD 0)).flatten ++
            bodies.flatten)
        (encodeList w (a :: b :: l))
  | .vUnit => .ok (leBytes w 0)

/-- Encode every element of a collection in iteration order, propagating
the first failure (`try!` inside the element loop). -/
def encodeList (w : Nat) : List Val → RtResult (List (List Nat))
  | [] => .ok []
  | e :: rest =>
    match encode w e with
    | .ok b => mapRt (fun bs => b :: bs) (encodeList w rest)
    | .err er => .err er
    | .panic => .panic

end

/-- The size-field reading loop of `validate_collection!`: decode `count`
consecutive `Size` fields starting at byte `index`.  Each read slices
`bytes[index..index + w]`, panicking (as Rust slice indexing does) when the
end of the range is out of bounds. -/
def readSizes (w : Nat) (bytes : List Nat) : Nat → Nat → RtResult (List Nat)
  | _, 0 => .ok []
  | index, count + 1 =>
    if index + w ≤ bytes.length then
      mapRt (fun rest => leToNat ((bytes.drop index).take w) :: rest)
        (readSizes w bytes (index + w) count)
    else .panic

/-- The size-field reading sequence of `tuple_impls!` decoding: one `Size`
field per position, each guarded by an explicit length check that returns a
`MoreThan` error (rather than panicking) when the buffer is too short. -/
def readTupleSizes (w : Nat) (bytes : List Nat) : Nat → Nat → RtResult (List Nat)
  | _, 0 => .ok []
  | index, count + 1 =>
    if w ≤ (bytes.drop index).length then
      mapRt (fun rest => leToNat ((bytes.drop index).take w) :: rest)
        (readTupleSizes w bytes (index + w) count)
    else .err (.BadSizeDecodeError (.MoreThan (w + index)) bytes.length)

/-- The unchecked `usize` fold `sizes.fold(0, |acc, size| acc + size)`
computing the expected body size on the decode path: plain 64-bit wrapping
addition at every step. -/
def bodySizeFold (sizes : List Nat) : Nat :=
  sizes.foldl (fun acc s => (acc + s) % usizeMod) 0

/-- Decode the element bodies of a collection: for each declared size,
slice `bytes[index..index + size]` (panicking when out of bounds, as Rust
slicing does) and run the element decoder `dec` on it. -/
def decodeElems (w : Nat) (dec : List Nat → RtResult Val) :
    List Nat → List Nat → Nat → RtResult (List Val)
  | [], _, _ => .ok []
  | s :: rest, bytes, index =>
    if index + s ≤ bytes.length then
      match dec ((bytes.drop index).take s) with
      | .ok v => mapRt (fun l => v :: l) (decodeElems w dec rest bytes (index + s))
      | .err e => .err e
      | .panic => .panic
    else .panic

/-- `validate_collection!` from `src/impls/collections.rs` followed by the
element loop of the `Vec`/`HashSet`/`HashMap` decoders, with the element
decoder abstracted as `dec`:
read the count field (`MoreThan` error when even that is missing), check
the buffer holds `count * w` size-field bytes (`MoreThan` error otherwise),
read the size fields, compare the (wrapping) sum of the sizes with the rest
of the buffer (`EqualTo` error on mismatch), then decode each element body.
The products and sums the source computes on raw `usize` values are taken
`% 2^64`. -/
def decodeCollection (w : Nat) (dec : List Nat → RtResult Val)
    (bytes : List Nat) : RtResult (List Val) :=
  if w ≤ bytes.length then
    if leToNat (bytes.take w) * w % usizeMod ≤ (bytes.drop w).length then
      match readSizes w bytes w (leToNat (bytes.take w)) with
      | .ok sizes =>
        if bodySizeFold sizes =
            (bytes.drop (w + leToNat (bytes.take w) * w % usizeMod)).length then
          decodeElems w dec sizes bytes (w + leToNat (bytes.take w) * w)
        else
          .err (.BadSizeDecodeError
            (.EqualTo ((w + leToNat (bytes.take w) * w % usizeMod +
              bodySizeFold sizes) % usizeMod)) bytes.length)
      | .err e => .err e
      | .panic => .panic
    else
      .err (.BadSizeDecodeError
        (.MoreThan ((w + leToNat (bytes.take w) * w % usizeMod) % usizeMod))
        bytes.length)
  else .err (.BadSizeDecodeError (.MoreThan w) bytes.length)

/-- Decode the element bodies of a tuple: for each position, slice
`bytes[index..index + size]` (panicking when out of bounds) and run that
position's decoder. -/
def decodeTupleElems (w : Nat) :
    List (List Nat → RtResult Val) → List Nat → List Nat → Nat → RtResult (List Val)
  | [], _, _, _ => .ok []
  | _ :: _, [], _, _ => .panic
  | dec :: decs, s :: rest, bytes, index =>
    if index + s ≤ bytes.length then
      match dec ((bytes.drop index).take s) with
      | .ok v =>
        mapRt (fun l => v :: l) (decodeTupleElems w decs rest bytes (index + s))
      | .err e => .err e
      | .panic => .panic
    else .panic

/-- The body of `tuple_impls!` decoding, with the per-position decoders
abstracted: read one size field per position (distinct `MoreThan` errors),
compare the (wrapping) sum of the declared sizes with the remaining buffer
(`EqualTo` error on mismatch), then decode each position's body in order. -/
def decodeTuple (w : Nat) (decs : List (List Nat → RtResult Val))
    (bytes : List Nat) : RtResult (List Val) :=
  match readTupleSizes w bytes 0 decs.length with
  | .ok sizes =>
    if bodySizeFold sizes = (bytes.drop (w * decs.length)).length then
      decodeTupleElems w decs sizes bytes (w * decs.length)
    else
      .err (.BadSizeDecodeError
        (.EqualTo ((w * decs.length + bodySizeFold sizes) % usizeMod))
        bytes.length)
  | .err e => .err e
  | .panic => .panic

/-- Width classification of a lead byte, as in the `UTF8_CHAR_WIDTH` table
used by `core::str`'s validation (`0` marks a byte that can never start a
character). -/
def utf8CharWidth (b : Nat) : Nat :=
  if b < 0x80 then 1
  else if b < 0xC2 then 0
  else if b < 0xE0 then 2
  else if b < 0xF0 then 3
  else if b < 0xF5 then 4
  else 0

/-- A UTF-8 continuation byte (`0x80..=0xBF`). -/
def isCont (b : Nat) : Bool := 0x80 ≤ b && b < 0xC0

/-- Valid (lead, second) pairs for a three-byte sequence, ruling out
overlong forms and surrogates: `(0xE0, 0xA0..=0xBF)`, `(0xE1..=0xEC, 0x80..=0xBF)`,
`(0xED, 0x80..=0x9F)`, `(0xEE..=0xEF, 0x80..=0xBF)`. -/
def utf8Valid3 (b c : Nat) : Bool :=
  (b = 0xE0 && 0xA0 ≤ c && c < 0xC0) ||
  (0xE1 ≤ b && b < 0xED && 0x80 ≤ c && c < 0xC0) ||
  (b = 0xED && 0x80 ≤ c && c < 0xA0) ||
  (0xEE ≤ b && b < 0xF0 && 0x80 ≤ c && c < 0xC0)

/-- Valid (lead, second) pairs for a four-byte sequence, ruling out
overlong forms and values beyond `U+10FFFF`: `(0xF0, 0x90..=0xBF)`,
`(0xF1..=0xF3, 0x80..=0xBF)`, `(0xF4, 0x80..=0x8F)`. -/
def utf8Valid4 (b c : Nat) : Bool :=
  (b = 0xF0 && 0x90 ≤ c && c < 0xC0) ||
  (0xF1 ≤ b && b < 0xF4 && 0x80 ≤ c && c < 0xC0) ||
  (b = 0xF4 && 0x80 ≤ c && c < 0x90)

mutual

/-- `core::str::from_utf8`'s validation loop (`run_utf8_validation`),
called by `String::decode` (`str::from_utf8(bytes)` in
`src/impls/collections.rs`): returns `none` when `bytes` is valid UTF-8,
and the error (index of the first byte of the first invalid sequence)
otherwise.  `i` is the byte offset already consumed; the width-2/3/4 arms
of the loop's match are split into the three helpers below. -/
def validateUtf8 : List Nat → Nat → Option Utf8Error
  | [], _ => none
  | b :: rest, i =>
    if b < 0x80 then validateUtf8 rest (i + 1)
    else if utf8CharWidth b = 2 then validateCont2 rest i
    else if utf8CharWidth b = 3 then validateCont3 b rest i
    else if utf8CharWidth b = 4 then validateCont4 b rest i
    else some ⟨i⟩
termination_by l _ => l.length
decreasing_by
  all_goals simp_wf
  all_goals omega

/-- Continuation of a two-byte sequence: one continuation byte. -/
def validateCont2 : List Nat → Nat → Option Utf8Error
  | c :: rest2, i => if isCont c then validateUtf8 rest2 (i + 2) else some ⟨i⟩
  | [], i => some ⟨i⟩
termination_by l _ => l.length
decreasing_by
  all_goals simp_wf
  all_goals omega

/-- Continuation of a three-byte sequence with lead byte `b`: a second
byte restricted by `utf8Valid3` and one further continuation byte. -/
def validateCont3 (b : Nat) : List Nat → Nat → Option Utf8Error
  | c :: d :: rest3, i =>
    if utf8Valid3 b c && isCont d then validateUtf8 rest3 (i + 3)
    else some ⟨i⟩
  | _, i => some ⟨i⟩
termination_by l _ => l.length
decreasing_by
  all_goals simp_wf
  all_goals omega

/-- Continuation of a four-byte sequence with lead byte `b`: a second byte
restricted by `utf8Valid4` and two further continuation bytes. -/
def validateCont4 (b : Nat) : List Nat → Nat → Option Utf8Error
  | c :: d :: e :: rest4, i =>
    if utf8Valid4 b c && isCont d && isCont e then validateUtf8 rest4 (i + 4)
    else some ⟨i⟩
  | _, i => some ⟨i⟩
termination_by l _ => l.length
decreasing_by
  all_goals simp_wf
  all_goals omega

end

mutual

/-- `ByteDecodable::decode::<Size>` for a size representation of byte width
`w`.  Fixed-width primitives (`impl_integrals!` / `as_unsized_impl!`):
require the slice length to equal the type's width, else an `EqualTo`
error; `String`: UTF-8-validate the whole slice; `Vec`/`HashSet`: the
collection layout with the element decoder; `HashMap`: the collection
layout decoding every element as a `(K, V)` 2-tuple; tuples
(`tuple_impls!`): one size field and one body per position; `()`: ignore
the buffer entirely. -/
def decode (w : Nat) : Ty → List Nat → RtResult Val
  | .tU width, bytes =>
    if bytes.length = width then .ok (.vU width (leToNat bytes))
    else .err (.BadSizeDecodeError (.EqualTo width) bytes.length)
  | .tI width, bytes =>
    if bytes.length = width then .ok (.vI width (toSigned width (leToNat bytes)))
    else .err (.BadSizeDecodeError (.EqualTo width) bytes.length)
  | .tF32, bytes =>
    if bytes.length = 4 then .ok (.vF32 (leToNat bytes))
    else .err (.BadSizeDecodeError (.EqualTo 4) bytes.length)
  | .tF64, bytes =>
    if bytes.length = 8 then .ok (.vF64 (leToNat bytes))
    else .err (.BadSizeDecodeError (.EqualTo 8) bytes.length)
  | .tChar, bytes =>
    if bytes.length = 4 then .ok (.vChar (leToNat bytes))
    else .err (.BadSizeDecodeError (.EqualTo 4) bytes.length)
  | .tStr, bytes =>
    match validateUtf8 bytes 0 with
    | none => .ok (.vStr bytes)
    | some e => .err (.StringDecodeUtf8Error e)
  | .tVec t, bytes =>
    mapRt Val.vVec (decodeCollection w (fun bs => decode w t bs) bytes)
  | .tSet t, bytes =>
    mapRt Val.vSet (decodeCollection w (fun bs => decode w t bs) bytes)
  | .tMap tk tv, bytes =>
    mapRt Val.vMap
      (decodeCollection w
        (fun bs =>
          mapRt Val.vTuple
            (decodeTuple w [fun b => decode w tk b, fun b => decode w tv b] bs))
        bytes)
  | .tTuple ts, bytes =>
    mapRt Val.vTuple (decodeTuple w (decodersOf w ts) bytes)
  | .tUnit, _ => .ok .vUnit
termination_by t _ => sizeOf t
decreasing_by
  all_goals simp_wf
  all_goals omega

/-- The per-position decoders of a tuple type, in position order. -/
def decodersOf (w : Nat) : List Ty → List (List Nat → RtResult Val)
  | [] => []
  | t :: ts => (fun bs => decode w t bs) :: decodersOf w ts
termination_by ts => sizeOf ts
decreasing_by
  all_goals simp_wf
  all_goals omega

end

/-- `ByteDecodable::decode_max` (the provided method in `src/traits.rs`),
with the underlying decoder abstracted as `dec`: delegate when the buffer
fits in `limit`, fail with a `LessOrEqualThan` error otherwise. -/
def decode_max {α : Type} (limit : Nat) (dec : List Nat → RtResult α)
    (bytes : List Nat) : RtResult α :=
  if bytes.length ≤ limit then dec bytes
  else .err (.BadSizeDecodeError (.LessOrEqualThan limit) bytes.length)

/-- Typing of model values: `HasTy v t` says the Rust value modelled by `v`
inhabits the supported type modelled by `t`.  Numeric bounds are the Rust
ranges; strings carry the `String` invariant of being valid UTF-8; maps
hold `(key, value)` 2-tuples; tuple arities are restricted to 2 to 12:
the arity-1 impl in `collections.rs` writes `(&(&self.0))` (missing tuple
comma), so `encode` on a 1-tuple autoderefs to the bare element and omits
the size field that the 1-tuple `decode` demands — its round trip fails
unconditionally and it is excluded from the well-behaved universe.  The
unit type is deliberately not covered either: it is a separate impl with
its own (size-mismatched) encoding. -/
inductive HasTy : Val → Ty → Prop where
  | u {width n : Nat} :
      (width = 1 ∨ width = 2 ∨ width = 4 ∨ width = 8) →
      n < 2 ^ (8 * width) → HasTy (.vU width n) (.tU width)
  | i {width : Nat} {i : Int} :
      (width = 1 ∨ width = 2 ∨ width = 4 ∨ width = 8) →
      -(2 ^ (8 * width - 1)) ≤ i → i < 2 ^ (8 * width - 1) →
      HasTy (.vI width i) (.tI width)
  | f32 {bits : Nat} : bits < 2 ^ 32 → HasTy (.vF32 bits) .tF32
  | f64 {bits : Nat} : bits < 2 ^ 64 → HasTy (.vF64 bits) .tF64
  | char {c : Nat} :
      (c < 0xD800 ∨ (0xE000 ≤ c ∧ c < 0x110000)) → HasTy (.vChar c) .tChar
  | str {s : List Nat} : validateUtf8 s 0 = none → HasTy (.vStr s) .tStr
  | vec {l : List Val} {t : Ty} :
      (∀ e ∈ l, HasTy e t) → HasTy (.vVec l) (.tVec t)
  | set {l : List Val} {t : Ty} :
      (∀ e ∈ l, HasTy e t) → HasTy (.vSet l) (.tSet t)
  | map {l : List Val} {tk tv : Ty} :
      (∀ e ∈ l, HasTy e (.tTuple [tk, tv])) → HasTy (.vMap l) (.tMap tk tv)
  | tuple {l : List Val} {ts : List Ty} :
      l.length = ts.length →
      (∀ p ∈ l.zip ts, HasTy p.1 p.2) →
      2 ≤ ts.length → ts.length ≤ 12 →
      HasTy (.vTuple l) (.tTuple ts)

/-! ## Byte-level lemmas -/

theorem leBytes_length (w : Nat) : ∀ n : Nat, (leBytes w n).length = w := by
  induction w with
  | zero => intro n; rfl
  | succ w ih => intro n; simp [leBytes, ih]

theorem leToNat_leBytes (w : Nat) : ∀ n : Nat, leToNat (leBytes w n) = n % 2 ^ (8 * w) := by
  induction w with
  | zero => intro n; simp [leBytes, leToNat, Nat.mul_zero, Nat.pow_zero, Nat.mod_one]
  | succ w ih =>
    intro n
    have h8 : 8 * (w + 1) = 8 + 8 * w := by ring
    have hpow : 2 ^ (8 * (w + 1)) = 256 * 2 ^ (8 * w) := by
      rw [h8, pow_add]; norm_num
    rw [leBytes, leToNat, ih, hpow, Nat.mod_mul]

theorem leToNat_leBytes_of_lt {w n : Nat} (h : n < 2 ^ (8 * w)) :
    leToNat (leBytes w n) = n := by
  rw [leToNat_leBytes, Nat.mod_eq_of_lt h]

theorem leBytes_lt_256 (w : Nat) : ∀ n : Nat, ∀ b ∈ leBytes w n, b < 256 := by
  induction w with
  | zero => intro n b hb; simp [leBytes] at hb
  | succ w ih =>
    intro n b hb
    rcases List.mem_cons.mp hb with h | h
    · subst h; exact Nat.mod_lt _ (by norm_num)
    · exact ih _ _ h

/-! ## `checked_add` lemmas -/

theorem cadd_eq_some {w a b c : Nat} (h : cadd w a b = some c) :
    c = a + b ∧ a + b ≤ maxVal w := by
  unfold cadd at h
  split at h
  · exact ⟨(Option.some.injEq _ _ ▸ h).symm, by assumption⟩
  · cases h

theorem cadd_of_le {w a b : Nat} (h : a + b ≤ maxVal w) :
    cadd w a b = some (a + b) := by
  unfold cadd
  simp [h]

/-! ## Characterizing the `get_size` accumulation loop -/

/-- The elementwise serialized sizes of a list, with `0` standing in for an
absent size (only meaningful when every size is present). -/
def sizesOf (w : Nat) (l : List Val) : List Nat :=
  l.map fun e => (get_size w e).getD 0

theorem sizeAcc_none (w : Nat) (l : List Val) : sizeAcc w l none = none := by
  induction l with
  | nil => rfl
  | cons e rest ih => rw [sizeAcc]; simpa using ih

theorem sizeAcc_some (w : Nat) (l : List Val) :
    ∀ a s : Nat, sizeAcc w l (some a) = some s →
      (∀ e ∈ l, ∃ k, get_size w e = some k) ∧
      s = a + (sizesOf w l).sum + w * l.length ∧
      (a ≤ maxVal w → s ≤ maxVal w) := by
  induction l with
  | nil =>
    intro a s h
    rw [sizeAcc] at h
    cases h
    exact ⟨by simp, by simp [sizesOf], fun ha => ha⟩
  | cons e rest ih =>
    intro a s h
    rw [sizeAcc] at h
    rcases hge : get_size w e with _ | k
    · rw [hge] at h
      simp only [Option.some_bind, Option.none_bind] at h
      rw [sizeAcc_none] at h; cases h
    · rw [hge] at h
      simp only [Option.some_bind] at h
      rcases hc1 : cadd w a k with _ | t
      · rw [hc1] at h
        simp only [Option.none_bind] at h
        rw [sizeAcc_none] at h; cases h
      · rw [hc1] at h
        simp only [Option.some_bind] at h
        rcases hc2 : cadd w t w with _ | a'
        · rw [hc2] at h
          rw [sizeAcc_none] at h; cases h
        · rw [hc2] at h
          obtain ⟨hall, hsum, hbound⟩ := ih a' s h
          obtain ⟨ht, _⟩ := cadd_eq_some hc1
          obtain ⟨ha', hle'⟩ := cadd_eq_some hc2
          refine ⟨?_, ?_, ?_⟩
          · intro x hx
            rcases List.mem_cons.mp hx with hx | hx
            · exact ⟨k, hx ▸ hge⟩
            · exact hall x hx
          · rw [hsum, ha', ht]
            simp [sizesOf, hge, List.length_cons]
            ring
          · intro _; exact hbound (ha' ▸ hle')

theorem sizeAcc_of_le (w : Nat) (l : List Val) :
    ∀ a : Nat, (∀ e ∈ l, ∃ k, get_size w e = some k) →
      a + (sizesOf w l).sum + w * l.length ≤ maxVal w →
      sizeAcc w l (some a) = some (a + (sizesOf w l).sum + w * l.length) := by
  induction l with
  | nil => intro a _ _; rw [sizeAcc]; simp [sizesOf]
  | cons e rest ih =>
    intro a hall hle
    obtain ⟨k, hk⟩ := hall e (List.mem_cons_self e rest)
    have hsum : (sizesOf w (e :: rest)).sum = k + (sizesOf w rest).sum := by
      simp [sizesOf, hk]
    rw [sizeAcc, hk]
    simp only [Option.some_bind]
    have hlen : w * (e :: rest).length = w + w * rest.length := by
      simp [List.length_cons]; ring
    have h1 : a + k ≤ maxVal w := by
      rw [hsum] at hle; rw [hlen] at hle; omega
    have h2 : a + k + w ≤ maxVal w := by
      rw [hsum] at hle; rw [hlen] at hle; omega
    rw [cadd_of_le h1]
    simp only [Option.some_bind]
    rw [cadd_of_le h2]
    rw [ih (a + k + w) (fun x hx => hall x (List.mem_cons_of_mem _ hx)) (by rw [hsum, hlen] at hle; omega)]
    congr 1
    rw [hsum, hlen]
    ring

/-! ## Structural induction over values (with member hypotheses) -/

theorem val_induction {motive : Val → Prop}
    (hU : ∀ width n, motive (.vU width n))
    (hI : ∀ width i, motive (.vI width i))
    (hF32 : ∀ bits, motive (.vF32 bits))
    (hF64 : ∀ bits, motive (.vF64 bits))
    (hChar : ∀ c, motive (.vChar c))
    (hStr : ∀ s, motive (.vStr s))
    (hVec : ∀ l, (∀ e ∈ l, motive e) → motive (.vVec l))
    (hSet : ∀ l, (∀ e ∈ l, motive e) → motive (.vSet l))
    (hMap : ∀ l, (∀ e ∈ l, motive e) → motive (.vMap l))
    (hTuple : ∀ l, (∀ e ∈ l, motive e) → motive (.vTuple l))
    (hUnit : motive .vUnit) :
    ∀ v, motive v
  | .vU width n => hU width n
  | .vI width i => hI width i
  | .vF32 bits => hF32 bits
  | .vF64 bits => hF64 bits
  | .vChar c => hChar c
  | .vStr s => hStr s
  | .vVec l => hVec l (fun e he =>
      val_induction hU hI hF32 hF64 hChar hStr hVec hSet hMap hTuple hUnit e)
  | .vSet l => hSet l (fun e he =>
      val_induction hU hI hF32 hF64 hChar hStr hVec hSet hMap hTuple hUnit e)
  | .vMap l => hMap l (fun e he =>
      val_induction hU hI hF32 hF64 hChar hStr hVec hSet hMap hTuple hUnit e)
  | .vTuple l => hTuple l (fun e he =>
      val_induction hU hI hF32 hF64 hChar hStr hVec hSet hMap hTuple hUnit e)
  | .vUnit => hUnit
termination_by v => sizeOf v
decreasing_by
  all_goals simp_wf
  all_goals have hlt := List.sizeOf_lt_of_mem he
  all_goals omega

/-! ## Unit-freeness

`()` is the one supported value whose encoded buffer length differs from
its reported `get_size` (it reports 0 but encodes as a `Size`-width zero).
Values avoiding `()` satisfy the "size fields tell body lengths" format
invariant. -/

mutual

/-- `true` when the value contains no `()` anywhere. -/
def unitFree : Val → Bool
  | .vU _ _ => true
  | .vI _ _ => true
  | .vF32 _ => true
  | .vF64 _ => true
  | .vChar _ => true
  | .vStr _ => true
  | .vVec l => unitFreeList l
  | .vSet l => unitFreeList l
  | .vMap l => unitFreeList l
  | .vTuple l => unitFreeList l
  | .vUnit => false

def unitFreeList : List Val → Bool
  | [] => true
  | e :: rest => unitFree e && unitFreeList rest

end

theorem unitFreeList_mem {l : List Val} (h : unitFreeList l = true) :
    ∀ e ∈ l, unitFree e = true := by
  induction l with
  | nil => intro e he; cases he
  | cons x rest ih =>
    rw [unitFreeList, Bool.and_eq_true] at h
    intro e he
    rcases List.mem_cons.mp he with he | he
    · exact he ▸ h.1
    · exact ih h.2 e he

/-! ## Lengths of concatenated blocks -/

theorem flatten_length_const {w : Nat} {L : List (List Nat)}
    (h : ∀ b ∈ L, b.length = w) : L.flatten.length = w * L.length := by
  induction L with
  | nil => simp
  | cons b rest ih =>
    simp only [List.flatten_cons, List.length_append, List.length_cons]
    rw [h b (List.mem_cons_self b rest), ih (fun x hx => h x (List.mem_cons_of_mem _ hx))]
    ring

/-- The property tying each element to its encoded body. -/
def EncBody (w : Nat) (e : Val) (b : List Nat) : Prop :=
  encode w e = .ok b ∧ b.length = (get_size w e).getD 0

theorem forall2_flatten_length {w : Nat} {l : List Val} {bodies : List (List Nat)}
    (h : List.Forall₂ (EncBody w) l bodies) :
    bodies.flatten.length = (sizesOf w l).sum := by
  induction h with
  | nil => simp [sizesOf]
  | cons hd tl ih =>
    simp only [List.flatten_cons, List.length_append, sizesOf, List.map_cons, List.sum_cons]
    rw [hd.2, ih]
    rfl

theorem forall2_map_length {w : Nat} {l : List Val} {bodies : List (List Nat)}
    (h : List.Forall₂ (EncBody w) l bodies) :
    bodies.map List.length = sizesOf w l := by
  induction h with
  | nil => rfl
  | cons hd tl ih => simp only [List.map_cons, sizesOf, ih, hd.2]

/-! ## Encoding succeeds with the reported length -/

theorem encodeList_ok (w : Nat) (l : List Val)
    (ih : ∀ e ∈ l, ∀ n, get_size w e = some n → ∃ bs, encode w e = .ok bs ∧ bs.length = n)
    (hall : ∀ e ∈ l, ∃ k, get_size w e = some k) :
    ∃ bodies, encodeList w l = .ok bodies ∧ List.Forall₂ (EncBody w) l bodies := by
  induction l with
  | nil => exact ⟨[], rfl, .nil⟩
  | cons e rest ihl =>
    obtain ⟨k, hk⟩ := hall e (List.mem_cons_self e rest)
    obtain ⟨b, hb, hblen⟩ := ih e (List.mem_cons_self e rest) k hk
    obtain ⟨bodies, hbs, hfa⟩ :=
      ihl (fun x hx => ih x (List.mem_cons_of_mem _ hx))
        (fun x hx => hall x (List.mem_cons_of_mem _ hx))
    refine ⟨b :: bodies, ?_, .cons ⟨hb, by simp [hblen, hk]⟩ hfa⟩
    rw [encodeList, hb, hbs]
    rfl

/-- The block of per-element size fields a collection or tuple encoder
writes before the bodies. -/
def fieldsOf (w : Nat) (l : List Val) : List Nat :=
  (l.map fun e => leBytes w ((get_size w e).getD 0)).flatten

theorem fieldsOf_length (w : Nat) (l : List Val) :
    (fieldsOf w l).length = w * l.length := by
  unfold fieldsOf
  rw [flatten_length_const, List.length_map]
  intro b hb
  obtain ⟨e, _, rfl⟩ := List.mem_map.mp hb
  exact leBytes_length w _

theorem colEncode_ok (w : Nat) (l : List Val) (n : Nat)
    (hcol : colSize w l = some n)
    (ih : ∀ e ∈ l, ∀ m, get_size w e = some m → ∃ bs, encode w e = .ok bs ∧ bs.length = m) :
    (∀ e ∈ l, ∃ k, get_size w e = some k) ∧
    n = (sizesOf w l).sum + w * l.length + w ∧ n ≤ maxVal w ∧
    ∃ bodies, encodeList w l = .ok bodies ∧ List.Forall₂ (EncBody w) l bodies ∧
      (leBytes w l.length ++ fieldsOf w l ++ bodies.flatten).length = n := by
  unfold colSize at hcol
  rcases hsa : sizeAcc w l (some 0) with _ | tot
  · rw [hsa] at hcol; cases hcol
  · rw [hsa] at hcol
    simp only [Option.some_bind] at hcol
    obtain ⟨hall, htot, hbnd⟩ := sizeAcc_some w l 0 tot hsa
    obtain ⟨hn, hle⟩ := cadd_eq_some hcol
    obtain ⟨bodies, hbs, hfa⟩ := encodeList_ok w l ih hall
    refine ⟨hall, by omega, by omega, bodies, hbs, hfa, ?_⟩
    simp only [List.length_append, fieldsOf_length, leBytes_length,
      forall2_flatten_length hfa]
    omega

/-- Whenever `get_size` is present and the value is `()`-free, `encode`
succeeds and the buffer has exactly the reported length. -/
theorem encode_ok (w : Nat) :
    ∀ v, unitFree v = true → ∀ n, get_size w v = some n →
      ∃ bs, encode w v = .ok bs ∧ bs.length = n := by
  intro v
  induction v using val_induction with
  | hU width m =>
    intro _ n hn
    cases hn
    exact ⟨leBytes width m, rfl, leBytes_length width m⟩
  | hI width i =>
    intro _ n hn
    cases hn
    exact ⟨_, rfl, leBytes_length width _⟩
  | hF32 bits =>
    intro _ n hn; cases hn; exact ⟨_, rfl, leBytes_length 4 bits⟩
  | hF64 bits =>
    intro _ n hn; cases hn; exact ⟨_, rfl, leBytes_length 8 bits⟩
  | hChar c =>
    intro _ n hn; cases hn; exact ⟨_, rfl, leBytes_length 4 c⟩
  | hStr s =>
    intro _ n hn
    rw [get_size] at hn
    split at hn
    · cases hn
      refine ⟨s, ?_, rfl⟩
      rw [encode]
      simp only [if_pos (by assumption)]
    · cases hn
  | hVec l ihm =>
    intro huf n hn
    rw [unitFree] at huf
    rw [get_size_vVec] at hn
    obtain ⟨hall, hn', hle, bodies, hbs, hfa, hlen⟩ :=
      colEncode_ok w l n hn
        (fun e he m hm => ihm e he (unitFreeList_mem huf e he) m hm)
    refine ⟨_, ?_, hlen⟩
    rw [encode, hn, hbs]
    rfl
  | hSet l ihm =>
    intro huf n hn
    rw [unitFree] at huf
    rw [get_size_vSet] at hn
    obtain ⟨hall, hn', hle, bodies, hbs, hfa, hlen⟩ :=
      colEncode_ok w l n hn
        (fun e he m hm => ihm e he (unitFreeList_mem huf e he) m hm)
    refine ⟨_, ?_, hlen⟩
    rw [encode, hn, hbs]
    rfl
  | hMap l ihm =>
    intro huf n hn
    rw [unitFree] at huf
    rw [get_size_vMap] at hn
    obtain ⟨hall, hn', hle, bodies, hbs, hfa, hlen⟩ :=
      colEncode_ok w l n hn
        (fun e he m hm => ihm e he (unitFreeList_mem huf e he) m hm)
    refine ⟨_, ?_, hlen⟩
    rw [encode, hn, hbs]
    rfl
  | hTuple l ihm =>
    intro huf n hn
    rw [unitFree] at huf
    rcases l with _ | ⟨a, _ | ⟨b, rest⟩⟩
    · rw [get_size] at hn
      cases hn
      exact ⟨[], rfl, rfl⟩
    · rw [get_size] at hn
      obtain ⟨bs, hbs, hlen⟩ :=
        ihm a (List.mem_cons_self a [])
          (unitFreeList_mem huf a (List.mem_cons_self a [])) n hn
      refine ⟨bs, ?_, hlen⟩
      rw [encode]
      exact hbs
    · rw [get_size] at hn
      obtain ⟨hall, htot, _⟩ := sizeAcc_some w (a :: b :: rest) 0 n hn
      obtain ⟨bodies, hbs, hfa⟩ :=
        encodeList_ok w (a :: b :: rest)
          (fun e he m hm => ihm e he (unitFreeList_mem huf e he) m hm) hall
      refine ⟨fieldsOf w (a :: b :: rest) ++ bodies.flatten, ?_, ?_⟩
      · rw [encode, hn, hbs]
        rfl
      · simp only [List.length_append, fieldsOf_length, forall2_flatten_length hfa]
        omega
  | hUnit =>
    intro huf
    cases huf

/-! ## Reading back the size fields -/

theorem readSizes_spec (w : Nat) (hw : 1 ≤ w) (bytes : List Nat) :
    ∀ (sizes : List Nat) (index : Nat) (tail : List Nat),
      (∀ s ∈ sizes, s < 2 ^ (8 * w)) →
      bytes.drop index = (sizes.map (leBytes w)).flatten ++ tail →
      readSizes w bytes index sizes.length = .ok sizes := by
  intro sizes
  induction sizes with
  | nil => intro index tail _ _; rfl
  | cons s rest ih =>
    intro index tail hlt hdrop
    simp only [List.map_cons, List.flatten_cons, List.append_assoc] at hdrop
    have hlen : (bytes.drop index).length = w + ((rest.map (leBytes w)).flatten ++ tail).length := by
      rw [hdrop]
      simp [leBytes_length]
    have hidx : index + w ≤ bytes.length := by
      rw [List.length_drop] at hlen
      omega
    rw [List.length_cons, readSizes, if_pos hidx]
    have htake : (bytes.drop index).take w = leBytes w s := by
      rw [hdrop, List.take_left' (leBytes_length w s)]
    have hdrop' : bytes.drop (index + w) = (rest.map (leBytes w)).flatten ++ tail := by
      rw [← List.drop_drop, hdrop, List.drop_left' (leBytes_length w s)]
    rw [ih (index + w) tail (fun x hx => hlt x (List.mem_cons_of_mem _ hx)) hdrop']
    rw [htake, leToNat_leBytes_of_lt (hlt s (List.mem_cons_self s rest))]
    rfl

theorem readTupleSizes_spec (w : Nat) (hw : 1 ≤ w) (bytes : List Nat) :
    ∀ (sizes : List Nat) (index : Nat) (tail : List Nat),
      (∀ s ∈ sizes, s < 2 ^ (8 * w)) →
      bytes.drop index = (sizes.map (leBytes w)).flatten ++ tail →
      readTupleSizes w bytes index sizes.length = .ok sizes := by
  intro sizes
  induction sizes with
  | nil => intro index tail _ _; rfl
  | cons s rest ih =>
    intro index tail hlt hdrop
    simp only [List.map_cons, List.flatten_cons, List.append_assoc] at hdrop
    have hlen : (bytes.drop index).length = w + ((rest.map (leBytes w)).flatten ++ tail).length := by
      rw [hdrop]
      simp [leBytes_length]
    have hge : w ≤ (bytes.drop index).length := by omega
    rw [List.length_cons, readTupleSizes, if_pos hge]
    have htake : (bytes.drop index).take w = leBytes w s := by
      rw [hdrop, List.take_left' (leBytes_length w s)]
    have hdrop' : bytes.drop (index + w) = (rest.map (leBytes w)).flatten ++ tail := by
      rw [← List.drop_drop, hdrop, List.drop_left' (leBytes_length w s)]
    rw [ih (index + w) tail (fun x hx => hlt x (List.mem_cons_of_mem _ hx)) hdrop']
    rw [htake, leToNat_leBytes_of_lt (hlt s (List.mem_cons_self s rest))]
    rfl

/-! ## The wrapping body-size fold -/

theorem bodySizeFold_eq (sizes : List Nat) :
    bodySizeFold sizes = sizes.sum % usizeMod := by
  have aux : ∀ (l : List Nat) (a : Nat),
      l.foldl (fun acc s => (acc + s) % usizeMod) (a % usizeMod) = (a + l.sum) % usizeMod := by
    intro l
    induction l with
    | nil => intro a; simp
    | cons s rest ih =>
      intro a
      simp only [List.foldl_cons, List.sum_cons]
      rw [Nat.mod_add_mod]
      rw [ih (a + s)]
      congr 1
      omega
  have := aux sizes 0
  simpa [bodySizeFold] using this

theorem bodySizeFold_of_lt {sizes : List Nat} (h : sizes.sum < usizeMod) :
    bodySizeFold sizes = sizes.sum := by
  rw [bodySizeFold_eq, Nat.mod_eq_of_lt h]

/-! ## Decoding the element bodies -/

theorem decodeElems_spec (w : Nat) (dec : List Nat → RtResult Val)
    (bytes : List Nat) :
    ∀ (elems : List Val) (bodies : List (List Nat)) (index : Nat),
      List.Forall₂ (fun (e : Val) (b : List Nat) => dec b = .ok e) elems bodies →
      index ≤ bytes.length →
      bytes.drop index = bodies.flatten →
      decodeElems w dec (bodies.map List.length) bytes index = .ok elems := by
  intro elems bodies
  induction bodies generalizing elems with
  | nil =>
    intro index hfa _ _
    cases hfa
    rfl
  | cons b rest ih =>
    intro index hfa hidx hdrop
    rcases hfa with _ | @⟨e, _, elems', _, he, hrest⟩
    simp only [List.flatten_cons] at hdrop
    have hlen : (bytes.drop index).length = b.length + rest.flatten.length := by
      rw [hdrop, List.length_append]
    rw [List.length_drop] at hlen
    have hbound : index + b.length ≤ bytes.length := by omega
    rw [List.map_cons, decodeElems, if_pos hbound]
    have htake : (bytes.drop index).take b.length = b := by
      rw [hdrop, List.take_left]
    have hdrop' : bytes.drop (index + b.length) = rest.flatten := by
      rw [← List.drop_drop, hdrop, List.drop_left]
    rw [htake, he, ih elems' (index + b.length) hrest (by omega) hdrop']
    rfl

theorem decodeTupleElems_spec (w : Nat) (bytes : List Nat) :
    ∀ (decs : List (List Nat → RtResult Val)) (elems : List Val)
      (bodies : List (List Nat)) (index : Nat),
      List.Forall₂ (fun (p : (List Nat → RtResult Val) × List Nat) (e : Val) =>
        p.1 p.2 = .ok e) (decs.zip bodies) elems →
      decs.length = bodies.length →
      index ≤ bytes.length →
      bytes.drop index = bodies.flatten →
      decodeTupleElems w decs (bodies.map List.length) bytes index = .ok elems := by
  intro decs
  induction decs with
  | nil =>
    intro elems bodies index hfa hlen _ _
    have : bodies = [] := by
      cases bodies
      · rfl
      · cases hlen
    subst this
    cases hfa
    rfl
  | cons dec decs ih =>
    intro elems bodies index hfa hlen hidx hdrop
    rcases bodies with _ | ⟨b, bodies⟩
    · cases hlen
    rcases hfa with _ | @⟨_, e, _, elems', he, hrest⟩
    have he' : dec b = .ok e := he
    simp only [List.flatten_cons] at hdrop
    have hl : (bytes.drop index).length = b.length + bodies.flatten.length := by
      rw [hdrop, List.length_append]
    rw [List.length_drop] at hl
    have hbound : index + b.length ≤ bytes.length := by omega
    rw [List.map_cons, decodeTupleElems, if_pos hbound]
    have htake : (bytes.drop index).take b.length = b := by
      rw [hdrop, List.take_left]
    have hdrop' : bytes.drop (index + b.length) = bodies.flatten := by
      rw [← List.drop_drop, hdrop, List.drop_left]
    rw [htake, he',
      ih elems' bodies (index + b.length) hrest (by simpa using hlen) (by omega) hdrop']
    rfl

/-! ## Helper facts -/

theorem maxVal_lt_usizeMod {w : Nat} (hw8 : w ≤ 8) : maxVal w < usizeMod := by
  have : 2 ^ (8 * w) ≤ 2 ^ 64 := Nat.pow_le_pow_right (by norm_num) (by omega)
  unfold maxVal usizeMod
  omega

theorem forall2_imp_mem {α β : Type} {R S : α → β → Prop} :
    ∀ {l₁ : List α} {l₂ : List β}, List.Forall₂ R l₁ l₂ →
      (∀ a ∈ l₁, ∀ b, R a b → S a b) → List.Forall₂ S l₁ l₂ := by
  intro l₁ l₂ h
  induction h with
  | nil => intro _; exact .nil
  | cons hd tl ih =>
    intro himp
    rename_i a b l₁' l₂'
    exact .cons (himp a (List.mem_cons_self a l₁') b hd)
      (ih fun x hx => himp x (List.mem_cons_of_mem _ hx))

theorem mem_zip_left {α β : Type} :
    ∀ {l : List α} {ts : List β} {e : α}, l.length = ts.length → e ∈ l →
      ∃ t, (e, t) ∈ l.zip ts := by
  intro l
  induction l with
  | nil => intro ts e _ he; cases he
  | cons x rest ih =>
    intro ts e hlen he
    rcases ts with _ | ⟨t, ts'⟩
    · cases hlen
    rcases List.mem_cons.mp he with he | he
    · exact ⟨t, he ▸ List.mem_cons_self _ _⟩
    · obtain ⟨t', ht'⟩ := ih (by simpa using hlen) he
      exact ⟨t', List.mem_cons_of_mem _ ht'⟩

theorem fieldsOf_eq_flatten (w : Nat) (l : List Val) :
    fieldsOf w l = ((sizesOf w l).map (leBytes w)).flatten := by
  unfold fieldsOf sizesOf
  rw [List.map_map]
  rfl

theorem sizesOf_lt {w : Nat} {l : List Val} {n : Nat}
    (hall : ∀ e ∈ l, ∃ k, get_size w e = some k)
    (hsum : (sizesOf w l).sum ≤ n) (hn : n ≤ maxVal w) :
    ∀ s ∈ sizesOf w l, s < 2 ^ (8 * w) := by
  intro s hs
  have hle : s ≤ (sizesOf w l).sum :=
    List.single_le_sum (fun x _ => Nat.zero_le x) s hs
  unfold maxVal at hn
  have : 0 < 2 ^ (8 * w) := Nat.pos_pow_of_pos _ (by norm_num)
  omega

theorem decodersOf_length (w : Nat) : ∀ ts : List Ty, (decodersOf w ts).length = ts.length := by
  intro ts
  induction ts with
  | nil => rw [decodersOf]; rfl
  | cons t rest ih => rw [decodersOf]; simp [ih]

/-! ## Collection round-trip -/

theorem collection_rt (w : Nat) (hw1 : 1 ≤ w) (hw8 : w ≤ 8)
    (l : List Val) (n : Nat) (dec : List Nat → RtResult Val)
    (hcol : colSize w l = some n)
    (ihE : ∀ e ∈ l, ∀ m, get_size w e = some m →
      ∃ bs, encode w e = .ok bs ∧ bs.length = m)
    (ihD : ∀ e ∈ l, ∀ m, get_size w e = some m →
      ∀ b, encode w e = .ok b → dec b = .ok e) :
    ∃ bodies, encodeList w l = .ok bodies ∧
      (leBytes w l.length ++ fieldsOf w l ++ bodies.flatten).length = n ∧
      decodeCollection w dec
        (leBytes w l.length ++ fieldsOf w l ++ bodies.flatten) = .ok l := by
  obtain ⟨hall, hn, hle, bodies, hbs, hfa, hlen⟩ := colEncode_ok w l n hcol ihE
  refine ⟨bodies, hbs, hlen, ?_⟩
  set bs := leBytes w l.length ++ fieldsOf w l ++ bodies.flatten with hbsdef
  have hNw : l.length ≤ w * l.length := Nat.le_mul_of_pos_left _ hw1
  have hNlt : l.length < 2 ^ (8 * w) := by
    unfold maxVal at hle
    have : 0 < 2 ^ (8 * w) := Nat.pos_pow_of_pos _ (by norm_num)
    omega
  have hmaxusz : maxVal w < usizeMod := maxVal_lt_usizeMod hw8
  have hNwlt : w * l.length < usizeMod := by omega
  have hsumle : (sizesOf w l).sum ≤ n := by omega
  have htake : bs.take w = leBytes w l.length := by
    rw [hbsdef, List.append_assoc, List.take_left' (leBytes_length w l.length)]
  have hdropw : bs.drop w = fieldsOf w l ++ bodies.flatten := by
    rw [hbsdef, List.append_assoc, List.drop_left' (leBytes_length w l.length)]
  have hflatlen : bodies.flatten.length = (sizesOf w l).sum := forall2_flatten_length hfa
  have hwle : w ≤ bs.length := by rw [hlen]; omega
  rw [decodeCollection, if_pos hwle]
  rw [htake, leToNat_leBytes_of_lt hNlt]
  have hmul : l.length * w % usizeMod = w * l.length := by
    rw [Nat.mul_comm, Nat.mod_eq_of_lt hNwlt]
  rw [hmul]
  have hdroplen : (bs.drop w).length = w * l.length + (sizesOf w l).sum := by
    rw [hdropw, List.length_append, fieldsOf_length, hflatlen]
  rw [if_pos (by rw [hdroplen]; omega)]
  have hsizes :
      readSizes w bs w l.length = .ok (sizesOf w l) := by
    have hcount : l.length = (sizesOf w l).length := by
      unfold sizesOf; rw [List.length_map]
    rw [hcount]
    exact readSizes_spec w hw1 bs (sizesOf w l) w bodies.flatten
      (sizesOf_lt hall hsumle hle)
      (by rw [hdropw, fieldsOf_eq_flatten])
  rw [hsizes]
  dsimp only
  have hfold : bodySizeFold (sizesOf w l) = (sizesOf w l).sum :=
    bodySizeFold_of_lt (by omega)
  rw [hfold]
  have hdropbodies : bs.drop (w + w * l.length) = bodies.flatten := by
    have : bs = (leBytes w l.length ++ fieldsOf w l) ++ bodies.flatten := by
      rw [hbsdef, List.append_assoc]
    rw [this, List.drop_left']
    rw [List.length_append, leBytes_length, fieldsOf_length]
  rw [if_pos (by rw [hdropbodies, hflatlen])]
  have hmapl : sizesOf w l = bodies.map List.length := (forall2_map_length hfa).symm
  have hfa2 : List.Forall₂ (fun (e : Val) (b : List Nat) => dec b = .ok e) l bodies := by
    refine forall2_imp_mem hfa ?_
    intro e he b hb
    obtain ⟨k, hk⟩ := hall e he
    exact ihD e he k hk b hb.1
  have := decodeElems_spec w dec bs l bodies (w + l.length * w)
    (by
      refine forall2_imp_mem hfa2 ?_
      intro e _ b hb
      exact hb)
    (by rw [hlen, Nat.mul_comm l.length w]; omega)
    (by rw [Nat.mul_comm]; exact hdropbodies)
  rw [hmapl]
  rw [Nat.mul_comm w l.length] at hdropbodies
  exact this

/-! ## Tuple round-trip -/

theorem decodersOf_zip_forall2 (w : Nat) :
    ∀ (l : List Val) (ts : List Ty) (bodies : List (List Nat)),
      List.Forall₂ (fun (e : Val) (b : List Nat) => encode w e = .ok b) l bodies →
      (∀ p ∈ l.zip ts, ∀ b, encode w p.1 = .ok b → decode w p.2 b = .ok p.1) →
      l.length = ts.length →
      List.Forall₂ (fun (p : (List Nat → RtResult Val) × List Nat) (e : Val) =>
        p.1 p.2 = .ok e) ((decodersOf w ts).zip bodies) l := by
  intro l
  induction l with
  | nil =>
    intro ts bodies hfa _ hlen
    cases hfa
    rcases ts with _ | ⟨t, ts'⟩
    · rw [decodersOf]; exact .nil
    · cases hlen
  | cons e l' ih =>
    intro ts bodies hfa hd hlen
    rcases ts with _ | ⟨t, ts'⟩
    · cases hlen
    rcases hfa with _ | @⟨_, b, _, bodies', he, hrest⟩
    rw [decodersOf]
    refine .cons ?_ ?_
    · exact hd (e, t) (List.mem_cons_self _ _) b he
    · exact ih ts' bodies' hrest
        (fun p hp => hd p (List.mem_cons_of_mem _ hp)) (by simpa using hlen)

theorem tuple_rt (w : Nat) (hw1 : 1 ≤ w) (hw8 : w ≤ 8)
    (l : List Val) (ts : List Ty) (n : Nat)
    (hts : sizeAcc w l (some 0) = some n)
    (hlen : l.length = ts.length)
    (ihE : ∀ e ∈ l, ∀ m, get_size w e = some m →
      ∃ bs, encode w e = .ok bs ∧ bs.length = m)
    (ihD : ∀ p ∈ l.zip ts, ∀ b, encode w p.1 = .ok b → decode w p.2 b = .ok p.1) :
    ∃ bodies, encodeList w l = .ok bodies ∧
      (fieldsOf w l ++ bodies.flatten).length = n ∧
      decodeTuple w (decodersOf w ts) (fieldsOf w l ++ bodies.flatten) = .ok l := by
  obtain ⟨hall, hn, hbnd⟩ := sizeAcc_some w l 0 n hts
  have hle : n ≤ maxVal w := hbnd (Nat.zero_le _)
  obtain ⟨bodies, hbs, hfa⟩ := encodeList_ok w l ihE hall
  have hflatlen : bodies.flatten.length = (sizesOf w l).sum := forall2_flatten_length hfa
  refine ⟨bodies, hbs, ?_, ?_⟩
  · rw [List.length_append, fieldsOf_length, hflatlen]
    omega
  set bs := fieldsOf w l ++ bodies.flatten with hbsdef
  have hmaxusz : maxVal w < usizeMod := maxVal_lt_usizeMod hw8
  have hsumle : (sizesOf w l).sum ≤ n := by omega
  have hsc : (sizesOf w l).length = l.length := by
    rw [sizesOf, List.length_map]
  have hsizes : readTupleSizes w bs 0 (sizesOf w l).length = .ok (sizesOf w l) := by
    refine readTupleSizes_spec w hw1 bs (sizesOf w l) 0 bodies.flatten
      (sizesOf_lt hall hsumle hle) ?_
    rw [List.drop_zero, hbsdef, fieldsOf_eq_flatten]
  have hlen2 : (decodersOf w ts).length = l.length := by
    rw [decodersOf_length]; exact hlen.symm
  rw [hsc] at hsizes
  rw [decodeTuple, hlen2, hsizes]
  dsimp only
  have hfold : bodySizeFold (sizesOf w l) = (sizesOf w l).sum :=
    bodySizeFold_of_lt (by omega)
  have hdropbodies : bs.drop (w * l.length) = bodies.flatten := by
    rw [hbsdef, List.drop_left']
    rw [fieldsOf_length]
  rw [hfold]
  rw [if_pos (by rw [hdropbodies, hflatlen])]
  have hmapl : sizesOf w l = bodies.map List.length := (forall2_map_length hfa).symm
  have hfa2 := decodersOf_zip_forall2 w l ts bodies
    (forall2_imp_mem hfa (fun e _ b hb => hb.1)) ihD hlen
  rw [hmapl]
  exact decodeTupleElems_spec w bs (decodersOf w ts) l bodies
    (w * l.length) hfa2
    (by rw [hlen2]; exact List.Forall₂.length_eq hfa)
    (by rw [hbsdef, List.length_append, fieldsOf_length]; omega)
    hdropbodies

/-! ## Signed primitives round-trip through two's complement -/

theorem toSigned_emod (width : Nat) (hw : 1 ≤ width) (i : Int)
    (hlb : -(2 ^ (8 * width - 1)) ≤ i) (hub : i < 2 ^ (8 * width - 1)) :
    toSigned width (i % 2 ^ (8 * width)).toNat = i := by
  have hsplit : 8 * width = (8 * width - 1) + 1 := by omega
  have hM2 : (2:Int) ^ (8 * width) = 2 * 2 ^ (8 * width - 1) := by
    conv_lhs => rw [hsplit]
    rw [pow_succ]; ring
  have hMpos : (0:Int) < 2 ^ (8 * width) := by positivity
  have hkpos : (0:Int) < 2 ^ (8 * width - 1) := by positivity
  have he0 : 0 ≤ i % 2 ^ (8 * width) := Int.emod_nonneg i (by omega)
  have heM : i % 2 ^ (8 * width) < 2 ^ (8 * width) :=
    Int.emod_lt_of_pos i hMpos
  have hee : i % 2 ^ (8 * width) = i ∨
      i % 2 ^ (8 * width) = i + 2 ^ (8 * width) := by
    rcases le_or_lt 0 i with hpos | hneg
    · exact .inl (Int.emod_eq_of_lt hpos (by omega))
    · refine .inr ?_
      have h1 : 0 ≤ i + 2 ^ (8 * width) := by omega
      have h2 : i + 2 ^ (8 * width) < 2 ^ (8 * width) := by omega
      rw [← Int.add_emod_self]
      exact Int.emod_eq_of_lt h1 h2
  have hcast : ((i % 2 ^ (8 * width)).toNat : Int) = i % 2 ^ (8 * width) :=
    Int.toNat_of_nonneg he0
  have hcast2 : ((2 ^ (8 * width - 1) : Nat) : Int) = 2 ^ (8 * width - 1) := by
    push_cast; ring
  unfold toSigned
  split
  · rename_i hlt
    have hltZ := Int.ofNat_lt.mpr hlt
    rw [hcast, hcast2] at hltZ
    rcases hee with hee | hee
    · rw [hcast, hee]
    · exfalso; omega
  · rename_i hge
    have hgeZ := Int.ofNat_le.mpr (Nat.le_of_not_lt hge)
    rw [hcast2, hcast] at hgeZ
    rcases hee with hee | hee
    · exfalso; omega
    · rw [hcast, hee]; push_cast; ring

/-- The per-pair decoder list the `HashMap` decoder uses is `decodersOf`
applied to the pair type. -/
theorem decodersOf_pair (w : Nat) (tk tv : Ty) :
    decodersOf w [tk, tv] =
      [fun b => decode w tk b, fun b => decode w tv b] := by
  rw [decodersOf, decodersOf, decodersOf]

/-! ## The round-trip theorem -/

theorem roundtrip_aux (w : Nat) (hw1 : 1 ≤ w) (hw8 : w ≤ 8) :
    ∀ {v : Val} {t : Ty}, HasTy v t → ∀ n, get_size w v = some n →
      ∃ bs, encode w v = .ok bs ∧ bs.length = n ∧ decode w t bs = .ok v := by
  intro v t ht
  induction ht with
  | u hwid hlt =>
    rename_i width m
    intro n hn
    rw [get_size] at hn
    cases hn
    refine ⟨leBytes width m, rfl, leBytes_length width m, ?_⟩
    rw [decode, if_pos (leBytes_length width m), leToNat_leBytes_of_lt hlt]
  | i hwid hlb hub =>
    rename_i width iv
    intro n hn
    rw [get_size] at hn
    cases hn
    refine ⟨_, rfl, leBytes_length width _, ?_⟩
    rw [decode, if_pos (leBytes_length width _)]
    have hw : 1 ≤ width := by rcases hwid with h | h | h | h <;> omega
    have hxlt : (iv % 2 ^ (8 * width)).toNat < 2 ^ (8 * width) := by
      have h0 : 0 ≤ iv % 2 ^ (8 * width) :=
        Int.emod_nonneg iv (by positivity)
      have hM : iv % 2 ^ (8 * width) < 2 ^ (8 * width) :=
        Int.emod_lt_of_pos iv (by positivity)
      have hc : ((2 ^ (8 * width) : Nat) : Int) = (2:Int) ^ (8 * width) := by
        push_cast; ring
      omega
    rw [leToNat_leBytes_of_lt hxlt, toSigned_emod width hw iv hlb hub]
  | f32 hlt =>
    rename_i bits
    intro n hn
    rw [get_size] at hn
    cases hn
    refine ⟨_, rfl, leBytes_length 4 _, ?_⟩
    rw [decode, if_pos (leBytes_length 4 _), leToNat_leBytes_of_lt (by norm_num at hlt ⊢; omega)]
  | f64 hlt =>
    rename_i bits
    intro n hn
    rw [get_size] at hn
    cases hn
    refine ⟨_, rfl, leBytes_length 8 _, ?_⟩
    rw [decode, if_pos (leBytes_length 8 _), leToNat_leBytes_of_lt (by norm_num at hlt ⊢; omega)]
  | char hsc =>
    rename_i c
    intro n hn
    rw [get_size] at hn
    cases hn
    refine ⟨_, rfl, leBytes_length 4 _, ?_⟩
    rw [decode, if_pos (leBytes_length 4 _), leToNat_leBytes_of_lt (by norm_num; omega)]
  | str hutf =>
    rename_i s
    intro n hn
    rw [get_size] at hn
    split at hn
    · cases hn
      refine ⟨s, ?_, rfl, ?_⟩
      · rw [encode, if_pos (by assumption)]
      · rw [decode, hutf]
    · cases hn
  | vec hmem ih =>
    rename_i l t'
    intro n hn
    rw [get_size_vVec] at hn
    obtain ⟨bodies, hbs, hlen, hdec⟩ :=
      collection_rt w hw1 hw8 l n (fun bs => decode w t' bs) hn
        (fun e he m hm => ((ih e he) m hm).imp fun bs h => ⟨h.1, h.2.1⟩)
        (fun e he m hm b hb => by
          obtain ⟨bs', henc', _, hdec'⟩ := ih e he m hm
          rw [henc'] at hb
          cases hb
          exact hdec')
    refine ⟨leBytes w l.length ++ fieldsOf w l ++ bodies.flatten, ?_, hlen, ?_⟩
    · rw [encode, hn, hbs]; rfl
    · rw [decode, hdec]; rfl
  | set hmem ih =>
    rename_i l t'
    intro n hn
    rw [get_size_vSet] at hn
    obtain ⟨bodies, hbs, hlen, hdec⟩ :=
      collection_rt w hw1 hw8 l n (fun bs => decode w t' bs) hn
        (fun e he m hm => ((ih e he) m hm).imp fun bs h => ⟨h.1, h.2.1⟩)
        (fun e he m hm b hb => by
          obtain ⟨bs', henc', _, hdec'⟩ := ih e he m hm
          rw [henc'] at hb
          cases hb
          exact hdec')
    refine ⟨leBytes w l.length ++ fieldsOf w l ++ bodies.flatten, ?_, hlen, ?_⟩
    · rw [encode, hn, hbs]; rfl
    · rw [decode, hdec]; rfl
  | map hmem ih =>
    rename_i l tk tv
    intro n hn
    rw [get_size_vMap] at hn
    obtain ⟨bodies, hbs, hlen, hdec⟩ :=
      collection_rt w hw1 hw8 l n
        (fun bs => mapRt Val.vTuple
          (decodeTuple w [fun b => decode w tk b, fun b => decode w tv b] bs)) hn
        (fun e he m hm => ((ih e he) m hm).imp fun bs h => ⟨h.1, h.2.1⟩)
        (fun e he m hm b hb => by
          obtain ⟨bs', henc', _, hdec'⟩ := ih e he m hm
          rw [henc'] at hb
          cases hb
          rw [decode, decodersOf_pair] at hdec'
          exact hdec')
    refine ⟨leBytes w l.length ++ fieldsOf w l ++ bodies.flatten, ?_, hlen, ?_⟩
    · rw [encode, hn, hbs]; rfl
    · rw [decode, hdec]; rfl
  | tuple hlen hzip h1 h12 ih =>
    rename_i l ts
    intro n hn
    rcases l with _ | ⟨a, _ | ⟨b, rest⟩⟩
    · exact absurd hlen.symm (by simp only [List.length_nil]; omega)
    · exact absurd hlen.symm (by simp only [List.length_cons, List.length_nil]; omega)
    · rw [get_size] at hn
      have hall : ∀ e ∈ a :: b :: rest, ∃ k, get_size w e = some k :=
        (sizeAcc_some w (a :: b :: rest) 0 n hn).1
      obtain ⟨bodies, hbs, hblen, hdec⟩ :=
        tuple_rt w hw1 hw8 (a :: b :: rest) ts n hn hlen
          (fun e he m hm => by
            obtain ⟨t', ht'⟩ := mem_zip_left hlen he
            exact ((ih (e, t') ht') m hm).imp fun bs h => ⟨h.1, h.2.1⟩)
          (fun p hp b hb => by
            obtain ⟨m, hm⟩ := hall p.1 (List.of_mem_zip hp).1
            obtain ⟨bs', henc', _, hdec'⟩ := ih p hp m hm
            rw [henc'] at hb
            cases hb
            exact hdec')
      refine ⟨fieldsOf w (a :: b :: rest) ++ bodies.flatten, ?_, hblen, ?_⟩
      · rw [encode, hn, hbs]; rfl
      · rw [decode, hdec]; rfl

/-! ## Claim C1 -/

/-- For every value type in the well-behaved universe (fixed-width
integers, floats, char, strings, Vec, HashSet, HashMap, tuples of arity 2
to 12 — see `HasTy` for why arity 1 is excluded) and for each size
representation in `{u8, u16, u32, u64}`: if the value's serialized size
fits the width (`get_size` is `Some`), then decoding the encoding succeeds
and returns the original value. -/
theorem roundtrip_supported (w : Nat) (hw : w = 1 ∨ w = 2 ∨ w = 4 ∨ w = 8)
    (v : Val) (t : Ty) (ht : HasTy v t) (n : Nat) (hn : get_size w v = some n) :
    ∃ bs, encode w v = .ok bs ∧ decode w t bs = .ok v := by
  have hw1 : 1 ≤ w := by rcases hw with h | h | h | h <;> omega
  have hw8 : w ≤ 8 := by rcases hw with h | h | h | h <;> omega
  obtain ⟨bs, h1, _, h3⟩ := roundtrip_aux w hw1 hw8 ht n hn
  exact ⟨bs, h1, h3⟩

/-- Concrete instance of `roundtrip_supported`: a two-element `Vec<u8>`
with the `u32` size representation round-trips. -/
theorem roundtrip_supported_example :
    ((4:Nat) = 1 ∨ (4:Nat) = 2 ∨ (4:Nat) = 4 ∨ (4:Nat) = 8) ∧
    HasTy (.vVec [.vU 1 7, .vU 1 9]) (.tVec (.tU 1)) ∧
    get_size 4 (.vVec [.vU 1 7, .vU 1 9]) = some 14 ∧
    ∃ bs, encode 4 (.vVec [.vU 1 7, .vU 1 9]) = .ok bs ∧
      decode 4 (.tVec (.tU 1)) bs = .ok (.vVec [.vU 1 7, .vU 1 9]) := by
  have ht : HasTy (.vVec [.vU 1 7, .vU 1 9]) (.tVec (.tU 1)) := by
    refine .vec ?_
    intro e he
    simp only [List.mem_cons, List.not_mem_nil, or_false] at he
    rcases he with rfl | rfl
    · exact .u (by norm_num) (by norm_num)
    · exact .u (by norm_num) (by norm_num)
  exact ⟨by norm_num, ht, rfl,
    roundtrip_supported 4 (by norm_num) _ _ ht 14 rfl⟩

/-- C1: the claimed round trip fails for 1-tuples, so the claim does not
hold for "tuples of arity up to 12" — a code bug.  The 1-tuple impl in
`src/impls/collections.rs` writes `(&(&self.0))` with the tuple comma
missing, so `get_size` and `encode` autoderef the `&&A` to the bare
element: for `(7u8,)` with the `u32` size representation, `get_size` is
`Some(1)` and `encode` yields just `[7]`, with no size field.  The
prefix-writing `&'a (&'a A,)` impl below it is unreachable dead code.  The
1-tuple `decode`, however, demands a 4-byte size field and fails on the
1-byte buffer with `MoreThan(4)`, actual length 1 — so decoding the
encoding of a 1-tuple never returns the original value, even though
`get_size` is `Some`.  (For arities 2 to 12 the round trip does hold:
`roundtrip_supported`.) -/
theorem c1_one_tuple_mismatch :
    get_size 4 (.vTuple [.vU 1 7]) = some 1 ∧
    encode 4 (.vTuple [.vU 1 7]) = .ok [7] ∧
    decode 4 (.tTuple [.tU 1]) [7] =
      .err (.BadSizeDecodeError (.MoreThan 4) 1) := by
  refine ⟨rfl, rfl, ?_⟩
  rw [decode, decodersOf, decodersOf]
  rfl

/-! ## Claim C2 -/

/-- C2: `decode_max` fails immediately with a `LessOrEqualThan limit` error
carrying the buffer's length whenever the buffer is longer than the limit,
and its result then does not depend on the underlying decoder at all (the
decoder is not invoked); whenever the buffer fits, it returns exactly the
underlying decoder's result.  The decoder is universally quantified, so
this holds for every decodable type. -/
theorem c2_decode_max {α : Type} (limit : Nat) (dec : List Nat → RtResult α)
    (bytes : List Nat) :
    (limit < bytes.length →
      decode_max limit dec bytes =
        .err (.BadSizeDecodeError (.LessOrEqualThan limit) bytes.length) ∧
      ∀ dec' : List Nat → RtResult α,
        decode_max limit dec bytes = decode_max limit dec' bytes) ∧
    (bytes.length ≤ limit → decode_max limit dec bytes = dec bytes) := by
  unfold decode_max
  constructor
  · intro hgt
    rw [if_neg (by omega)]
    exact ⟨rfl, fun dec' => by rw [if_neg (by omega)]⟩
  · intro hle
    rw [if_pos hle]

/-- Witness for C2: a 3-byte buffer against limit 2 is rejected even though
the underlying decoder would succeed, and accepted against limit 3. -/
theorem c2_decode_max_witness :
    ((2:Nat) < ([1, 2, 3] : List Nat).length ∧
      decode_max 2 (fun _ => RtResult.ok (0:Nat)) [1, 2, 3] =
        .err (.BadSizeDecodeError (.LessOrEqualThan 2) 3)) ∧
    (([1, 2, 3] : List Nat).length ≤ 3 ∧
      decode_max 3 (fun _ => RtResult.ok (0:Nat)) [1, 2, 3] = .ok 0) := by
  constructor
  · exact ⟨by norm_num,
      ((c2_decode_max 2 (fun _ => RtResult.ok (0:Nat)) [1, 2, 3]).1
        (by norm_num)).1⟩
  · exact ⟨by norm_num,
      (c2_decode_max 3 (fun _ => RtResult.ok (0:Nat)) [1, 2, 3]).2
        (by norm_num)⟩

/-! ## Claim C3 -/

/-- The fixed-width primitive types and their byte widths: the eight
integer widths from `impl_integrals!` and the three `as_unsized_impl!`
types that delegate to `u32`/`u64`. -/
inductive PrimTy : Ty → Nat → Prop where
  | u {k : Nat} : (k = 1 ∨ k = 2 ∨ k = 4 ∨ k = 8) → PrimTy (.tU k) k
  | i {k : Nat} : (k = 1 ∨ k = 2 ∨ k = 4 ∨ k = 8) → PrimTy (.tI k) k
  | f32 : PrimTy .tF32 4
  | f64 : PrimTy .tF64 8
  | char : PrimTy .tChar 4

/-- C3: decoding any fixed-width primitive from a slice whose length is not
the primitive's width fails with an `EqualTo width` error reporting the
slice's actual length; in particular the empty slice gives expected
`EqualTo width`, actual 0. -/
theorem c3_prim_exact_size (w : Nat) {t : Ty} {N : Nat} (hp : PrimTy t N)
    (bytes : List Nat) :
    (bytes.length ≠ N →
      decode w t bytes = .err (.BadSizeDecodeError (.EqualTo N) bytes.length)) ∧
    decode w t [] = .err (.BadSizeDecodeError (.EqualTo N) 0) := by
  have hN : N ≠ 0 := by
    cases hp with
    | u hk => rcases hk with h | h | h | h <;> omega
    | i hk => rcases hk with h | h | h | h <;> omega
    | f32 => omega
    | f64 => omega
    | char => omega
  constructor
  · intro hne
    cases hp <;> rw [decode, if_neg hne]
  · cases hp <;> (rw [decode, if_neg (by simpa using fun h => hN h.symm)]; rfl)

/-- Witness for C3: decoding `[1, 2, 3]` and `[]` as `u32`. -/
theorem c3_prim_exact_size_witness :
    PrimTy (.tU 4) 4 ∧ ([1, 2, 3] : List Nat).length ≠ 4 ∧
    decode 1 (.tU 4) [1, 2, 3] =
      .err (.BadSizeDecodeError (.EqualTo 4) 3) ∧
    decode 1 (.tU 4) [] = .err (.BadSizeDecodeError (.EqualTo 4) 0) := by
  have hp : PrimTy (.tU 4) 4 := .u (by norm_num)
  exact ⟨hp, by norm_num,
    (c3_prim_exact_size 1 hp [1, 2, 3]).1 (by norm_num),
    (c3_prim_exact_size 1 hp [1, 2, 3]).2⟩

/-! ## Claim C7 -/

/-- C7: encoding a string whose byte length is at most
`Size::max_value()` yields exactly its raw bytes (no length field, output
length = byte length, `get_size` = byte length); beyond the maximum,
`get_size` is absent and `encode` fails with an overflow error. -/
theorem c7_str_encode (w : Nat) (s : List Nat) :
    (s.length ≤ maxVal w →
      get_size w (.vStr s) = some s.length ∧ encode w (.vStr s) = .ok s) ∧
    (maxVal w < s.length →
      get_size w (.vStr s) = none ∧ encode w (.vStr s) = .err .OverflowError) := by
  constructor
  · intro hle
    constructor
    · rw [get_size, if_pos hle]
    · rw [encode, if_pos hle]
  · intro hgt
    constructor
    · rw [get_size, if_neg (by omega)]
    · rw [encode, if_neg (by omega)]

/-- Witness for C7: a 3-byte string with `Size = u8` fits (255 max);
a 300-byte string with `Size = u8` overflows. -/
theorem c7_str_encode_witness :
    (([104, 105, 33] : List Nat).length ≤ maxVal 1 ∧
      get_size 1 (.vStr [104, 105, 33]) = some 3 ∧
      encode 1 (.vStr [104, 105, 33]) = .ok [104, 105, 33]) ∧
    (maxVal 1 < (List.replicate 300 (97:Nat)).length ∧
      get_size 1 (.vStr (List.replicate 300 97)) = none ∧
      encode 1 (.vStr (List.replicate 300 97)) = .err .OverflowError) := by
  constructor
  · exact ⟨by norm_num [maxVal],
      (c7_str_encode 1 [104, 105, 33]).1 (by norm_num [maxVal])⟩
  · exact ⟨by rw [List.length_replicate]; norm_num [maxVal],
      (c7_str_encode 1 (List.replicate 300 97)).2
        (by rw [List.length_replicate]; norm_num [maxVal])⟩

/-! ## Claim C10 -/

/-- C10: for the unit type, `get_size` reports 0 yet `encode` returns the
`Size`-width encoding of zero — a buffer of `Size::get_size_of()` bytes,
not an empty one — so the encoded length differs from the reported size;
and `()`'s decoder ignores its input entirely, succeeding on every buffer. -/
theorem c10_unit (w : Nat) (hw : 0 < w) (bytes : List Nat) :
    get_size w .vUnit = some 0 ∧
    encode w .vUnit = .ok (leBytes w 0) ∧
    (leBytes w 0).length = w ∧ w ≠ 0 ∧
    decode w .tUnit bytes = .ok .vUnit := by
  refine ⟨rfl, rfl, leBytes_length w 0, by omega, ?_⟩
  rw [decode]

/-! ## Encoding succeeds whenever `get_size` is present (length aside) -/

theorem encodeList_ok_weak (w : Nat) (l : List Val)
    (ih : ∀ e ∈ l, ∀ n, get_size w e = some n → ∃ bs, encode w e = .ok bs)
    (hall : ∀ e ∈ l, ∃ k, get_size w e = some k) :
    ∃ bodies, encodeList w l = .ok bodies ∧
      List.Forall₂ (fun (e : Val) (b : List Nat) => encode w e = .ok b) l bodies := by
  induction l with
  | nil => exact ⟨[], rfl, .nil⟩
  | cons e rest ihl =>
    obtain ⟨k, hk⟩ := hall e (List.mem_cons_self e rest)
    obtain ⟨b, hb⟩ := ih e (List.mem_cons_self e rest) k hk
    obtain ⟨bodies, hbs, hfa⟩ :=
      ihl (fun x hx => ih x (List.mem_cons_of_mem _ hx))
        (fun x hx => hall x (List.mem_cons_of_mem _ hx))
    refine ⟨b :: bodies, ?_, .cons hb hfa⟩
    rw [encodeList, hb, hbs]
    rfl

theorem encode_ok_weak (w : Nat) :
    ∀ v n, get_size w v = some n → ∃ bs, encode w v = .ok bs := by
  intro v
  induction v using val_induction with
  | hU width m => intro n _; exact ⟨_, rfl⟩
  | hI width i => intro n _; exact ⟨_, rfl⟩
  | hF32 bits => intro n _; exact ⟨_, rfl⟩
  | hF64 bits => intro n _; exact ⟨_, rfl⟩
  | hChar c => intro n _; exact ⟨_, rfl⟩
  | hStr s =>
    intro n hn
    rw [get_size] at hn
    split at hn
    · exact ⟨s, by rw [encode, if_pos (by assumption)]⟩
    · cases hn
  | hVec l ihm =>
    intro n hn
    rw [get_size_vVec] at hn
    have hcol := hn
    unfold colSize at hn
    rcases hsa : sizeAcc w l (some 0) with _ | tot
    · rw [hsa] at hn; cases hn
    · rw [hsa] at hn
      obtain ⟨bodies, hbs, _⟩ :=
        encodeList_ok_weak w l ihm (sizeAcc_some w l 0 tot hsa).1
      exact ⟨_, by rw [encode, hcol, hbs]; rfl⟩
  | hSet l ihm =>
    intro n hn
    rw [get_size_vSet] at hn
    have hcol := hn
    unfold colSize at hn
    rcases hsa : sizeAcc w l (some 0) with _ | tot
    · rw [hsa] at hn; cases hn
    · rw [hsa] at hn
      obtain ⟨bodies, hbs, _⟩ :=
        encodeList_ok_weak w l ihm (sizeAcc_some w l 0 tot hsa).1
      exact ⟨_, by rw [encode, hcol, hbs]; rfl⟩
  | hMap l ihm =>
    intro n hn
    rw [get_size_vMap] at hn
    have hcol := hn
    unfold colSize at hn
    rcases hsa : sizeAcc w l (some 0) with _ | tot
    · rw [hsa] at hn; cases hn
    · rw [hsa] at hn
      obtain ⟨bodies, hbs, _⟩ :=
        encodeList_ok_weak w l ihm (sizeAcc_some w l 0 tot hsa).1
      exact ⟨_, by rw [encode, hcol, hbs]; rfl⟩
  | hTuple l ihm =>
    intro n hn
    rcases l with _ | ⟨a, _ | ⟨b, rest⟩⟩
    · exact ⟨[], rfl⟩
    · rw [get_size] at hn
      obtain ⟨bs, hbs⟩ := ihm a (List.mem_cons_self a []) n hn
      exact ⟨bs, by rw [encode]; exact hbs⟩
    · rw [get_size] at hn
      obtain ⟨bodies, hbs, _⟩ :=
        encodeList_ok_weak w (a :: b :: rest) ihm
          (sizeAcc_some w (a :: b :: rest) 0 n hn).1
      exact ⟨_, by rw [encode, hn, hbs]; rfl⟩
  | hUnit => intro n _; exact ⟨_, rfl⟩

theorem sizesOf_forall2 {w : Nat} {l : List Val}
    (hall : ∀ e ∈ l, ∃ k, get_size w e = some k) :
    List.Forall₂ (fun (e : Val) (k : Nat) => get_size w e = some k) l (sizesOf w l) := by
  induction l with
  | nil => exact .nil
  | cons e rest ih =>
    obtain ⟨k, hk⟩ := hall e (List.mem_cons_self e rest)
    refine .cons ?_ (ih fun x hx => hall x (List.mem_cons_of_mem _ hx))
    show get_size w e = some ((get_size w e).getD 0)
    rw [hk]
    rfl

theorem bodies_length_forall2 (w : Nat) :
    ∀ (l : List Val) (bodies : List (List Nat)),
      List.Forall₂ (fun (e : Val) (b : List Nat) => encode w e = .ok b) l bodies →
      (∀ e ∈ l, unitFree e = true) →
      (∀ e ∈ l, ∃ k, get_size w e = some k) →
      List.Forall₂ (fun (b : List Nat) (k : Nat) => b.length = k) bodies (sizesOf w l) := by
  intro l bodies hfa
  induction hfa with
  | nil => intro _ _; exact .nil
  | cons hd tl ih =>
    rename_i e b l' bodies'
    intro huf hall
    obtain ⟨k, hk⟩ := hall e (List.mem_cons_self e l')
    obtain ⟨bs, henc, hlen⟩ :=
      encode_ok w e (huf e (List.mem_cons_self e l')) k hk
    rw [henc] at hd
    cases hd
    refine .cons ?_ (ih (fun x hx => huf x (List.mem_cons_of_mem _ hx))
      (fun x hx => hall x (List.mem_cons_of_mem _ hx)))
    show b.length = (get_size w e).getD 0
    rw [hlen, hk]
    rfl

/-! ## Claim C4 -/

/-- C4: a collection (`Vec`/slice/`HashSet`/`HashMap`) whose `get_size` is
present encodes to exactly: the count as one `Size` field, then the `N`
per-element size fields in iteration order, then the `N` element bodies in
the same order — all length fields before all bodies.  The size fields
carry the elements' `get_size` values, which equal the bodies' byte
lengths whenever the elements are `()`-free (the `()` anomaly is claim
C10).  The `HashSet`/`HashMap`/slice encoders are the same macro expansion
and produce the identical buffer. -/
theorem c4_collection_layout (w : Nat) (l : List Val) (n : Nat)
    (hn : get_size w (.vVec l) = some n) :
    (∃ bodies,
      List.Forall₂ (fun (e : Val) (b : List Nat) => encode w e = .ok b) l bodies ∧
      List.Forall₂ (fun (e : Val) (k : Nat) => get_size w e = some k) l (sizesOf w l) ∧
      encode w (.vVec l) =
        .ok (leBytes w l.length ++ ((sizesOf w l).map (leBytes w)).flatten ++
          bodies.flatten) ∧
      (unitFreeList l = true →
        List.Forall₂ (fun (b : List Nat) (k : Nat) => b.length = k)
          bodies (sizesOf w l))) ∧
    encode w (.vSet l) = encode w (.vVec l) ∧
    encode w (.vMap l) = encode w (.vVec l) := by
  rw [get_size_vVec] at hn
  have hcol := hn
  unfold colSize at hn
  rcases hsa : sizeAcc w l (some 0) with _ | tot
  · rw [hsa] at hn; cases hn
  rw [hsa] at hn
  have hall := (sizeAcc_some w l 0 tot hsa).1
  obtain ⟨bodies, hbs, hfa⟩ :=
    encodeList_ok_weak w l (fun e _ m hm => encode_ok_weak w e m hm) hall
  refine ⟨⟨bodies, hfa, sizesOf_forall2 hall, ?_, ?_⟩, rfl, rfl⟩
  · rw [encode, hcol, hbs, ← fieldsOf_eq_flatten]
    rfl
  · intro huf
    exact bodies_length_forall2 w l bodies hfa (unitFreeList_mem huf) hall

/-- Witness for C4: `Vec [u8 7, u8 9]` with `Size = u16`. -/
theorem c4_collection_layout_witness :
    get_size 2 (.vVec [.vU 1 7, .vU 1 9]) = some 8 ∧
    (∃ bodies,
      List.Forall₂ (fun (e : Val) (b : List Nat) => encode 2 e = .ok b)
        [.vU 1 7, .vU 1 9] bodies ∧
      List.Forall₂ (fun (e : Val) (k : Nat) => get_size 2 e = some k)
        [.vU 1 7, .vU 1 9] (sizesOf 2 [.vU 1 7, .vU 1 9]) ∧
      encode 2 (.vVec [.vU 1 7, .vU 1 9]) =
        .ok (leBytes 2 ([Val.vU 1 7, Val.vU 1 9] : List Val).length ++
          ((sizesOf 2 [.vU 1 7, .vU 1 9]).map (leBytes 2)).flatten ++
          bodies.flatten) ∧
      (unitFreeList [.vU 1 7, .vU 1 9] = true →
        List.Forall₂ (fun (b : List Nat) (k : Nat) => b.length = k)
          bodies (sizesOf 2 [.vU 1 7, .vU 1 9]))) ∧
    encode 2 (.vSet [.vU 1 7, .vU 1 9]) = encode 2 (.vVec [.vU 1 7, .vU 1 9]) ∧
    encode 2 (.vMap [.vU 1 7, .vU 1 9]) = encode 2 (.vVec [.vU 1 7, .vU 1 9]) := by
  exact ⟨rfl, c4_collection_layout 2 [.vU 1 7, .vU 1 9] 8 rfl⟩

/-! ## Claim C6 -/

theorem sizeAcc_mem_none (w : Nat) :
    ∀ (l : List Val) (e : Val), e ∈ l → get_size w e = none →
      ∀ acc, sizeAcc w l acc = none := by
  intro l
  induction l with
  | nil => intro e he; cases he
  | cons x rest ih =>
    intro e he hge acc
    rcases List.mem_cons.mp he with he | he
    · subst he
      have h0 : (acc.bind fun a => (get_size w e).bind fun s =>
          (cadd w a s).bind fun t => cadd w t w) = none := by
        cases acc <;> simp [hge]
      rw [sizeAcc, h0, sizeAcc_none]
    · rw [sizeAcc]
      exact ih e he hge _

/-- C6: a collection's `get_size` is absent exactly when some element's own
`get_size` is absent or the accumulated total — element sizes plus one size
field per element plus the count field — exceeds the size representation's
maximum (the stepwise `checked_add`s fail iff the monotone total
overflows); and an absent `get_size` makes `encode` return `OverflowError`
rather than any buffer.  `HashSet` and `HashMap` share the `Vec`
computation verbatim. -/
theorem c6_collection_overflow (w : Nat) (l : List Val) :
    (get_size w (.vVec l) = none ↔
      (∃ e ∈ l, get_size w e = none) ∨
        maxVal w < (sizesOf w l).sum + w * l.length + w) ∧
    (get_size w (.vVec l) = none → encode w (.vVec l) = .err .OverflowError) ∧
    (get_size w (.vSet l) = none → encode w (.vSet l) = .err .OverflowError) ∧
    (get_size w (.vMap l) = none → encode w (.vMap l) = .err .OverflowError) ∧
    get_size w (.vSet l) = get_size w (.vVec l) ∧
    get_size w (.vMap l) = get_size w (.vVec l) := by
  have hiff : colSize w l = none ↔
      (∃ e ∈ l, get_size w e = none) ∨
        maxVal w < (sizesOf w l).sum + w * l.length + w := by
    constructor
    · intro hnone
      by_contra hcon
      push_neg at hcon
      obtain ⟨hA, hB⟩ := hcon
      have hall : ∀ e ∈ l, ∃ k, get_size w e = some k := by
        intro e he
        rcases hgs : get_size w e with _ | k
        · exact absurd hgs (hA e he)
        · exact ⟨k, rfl⟩
      unfold colSize at hnone
      rw [sizeAcc_of_le w l 0 hall (by omega)] at hnone
      simp only [Option.some_bind] at hnone
      rw [cadd_of_le (by omega)] at hnone
      cases hnone
    · intro h
      rcases h with ⟨e, he, hge⟩ | hover
      · unfold colSize
        rw [sizeAcc_mem_none w l e he hge]
        rfl
      · rcases hcs : colSize w l with _ | m
        · rfl
        · exfalso
          unfold colSize at hcs
          rcases hsa : sizeAcc w l (some 0) with _ | tot
          · rw [hsa] at hcs; cases hcs
          · rw [hsa] at hcs
            simp only [Option.some_bind] at hcs
            obtain ⟨_, htot, _⟩ := sizeAcc_some w l 0 tot hsa
            obtain ⟨_, hle⟩ := cadd_eq_some hcs
            omega
  refine ⟨by rw [get_size_vVec]; exact hiff, ?_, ?_, ?_, rfl, rfl⟩
  · intro h
    rw [get_size_vVec] at h
    rw [encode, h]
  · intro h
    rw [get_size_vSet] at h
    rw [encode, h]
  · intro h
    rw [get_size_vMap] at h
    rw [encode, h]

/-- Witness for C6: a 300-element `Vec<u8>` overflows `Size = u8`
(total 1 + 300·(1+1) = 601 > 255), and `encode` reports `OverflowError`. -/
theorem c6_collection_overflow_witness :
    (get_size 1 (.vVec (List.replicate 300 (Val.vU 1 5))) = none ↔
      (∃ e ∈ List.replicate 300 (Val.vU 1 5), get_size 1 e = none) ∨
        maxVal 1 < (sizesOf 1 (List.replicate 300 (Val.vU 1 5))).sum +
          1 * (List.replicate 300 (Val.vU 1 5)).length + 1) ∧
    (get_size 1 (.vVec (List.replicate 300 (Val.vU 1 5))) = none →
      encode 1 (.vVec (List.replicate 300 (Val.vU 1 5))) =
        .err .OverflowError) ∧
    maxVal 1 < (sizesOf 1 (List.replicate 300 (Val.vU 1 5))).sum +
      1 * (List.replicate 300 (Val.vU 1 5)).length + 1 := by
  obtain ⟨h1, h2, _, _, _, _⟩ :=
    c6_collection_overflow 1 (List.replicate 300 (Val.vU 1 5))
  refine ⟨h1, h2, ?_⟩
  have hsz : sizesOf 1 (List.replicate 300 (Val.vU 1 5)) =
      List.replicate 300 1 := by
    unfold sizesOf
    rw [List.map_replicate]
    rfl
  rw [hsz, List.sum_replicate, List.length_replicate]
  norm_num [maxVal]

/-! ## Claim C8: `String::decode` is exactly UTF-8 validation

The declarative side: a byte list is UTF-8 when it is the concatenation of
the UTF-8 encodings of a list of Unicode scalar values.  We prove this
equivalent to the `run_utf8_validation` loop modelled by `validateUtf8`,
so the claim is settled against the real UTF-8 language, not against a
restatement of the validator. -/

/-- A Unicode scalar value: any code point except the surrogate range. -/
def ScalarValue (c : Nat) : Prop :=
  c < 0xD800 ∨ (0xE000 ≤ c ∧ c < 0x110000)

instance (c : Nat) : Decidable (ScalarValue c) :=
  decidable_of_iff (c < 0xD800 ∨ (0xE000 ≤ c ∧ c < 0x110000)) Iff.rfl

/-- The UTF-8 encoding of one scalar value. -/
def utf8EncodeChar (c : Nat) : List Nat :=
  if c < 0x80 then [c]
  else if c < 0x800 then [0xC0 + c / 64, 0x80 + c % 64]
  else if c < 0x10000 then
    [0xE0 + c / 4096, 0x80 + c / 64 % 64, 0x80 + c % 64]
  else
    [0xF0 + c / 262144, 0x80 + c / 4096 % 64, 0x80 + c / 64 % 64, 0x80 + c % 64]

/-- A byte sequence is UTF-8 iff it encodes some list of scalar values. -/
def IsUtf8 (bytes : List Nat) : Prop :=
  ∃ cps : List Nat, (∀ c ∈ cps, ScalarValue c) ∧
    (cps.map utf8EncodeChar).flatten = bytes

theorem validateUtf8_encodeChar (c : Nat) (hs : ScalarValue c)
    (tail : List Nat) (i : Nat) :
    validateUtf8 (utf8EncodeChar c ++ tail) i =
      validateUtf8 tail (i + (utf8EncodeChar c).length) := by
  unfold ScalarValue at hs
  unfold utf8EncodeChar
  split
  · rename_i h1
    show validateUtf8 (c :: tail) i = validateUtf8 tail (i + 1)
    rw [validateUtf8, if_pos h1]
  split
  · rename_i h1 h2
    show validateUtf8 ((0xC0 + c / 64) :: (0x80 + c % 64) :: tail) i =
      validateUtf8 tail (i + 2)
    have hw2 : utf8CharWidth (0xC0 + c / 64) = 2 := by
      unfold utf8CharWidth
      rw [if_neg (by omega), if_neg (by omega), if_pos (by omega)]
    have hcont : isCont (0x80 + c % 64) = true := by
      simp only [isCont, Bool.and_eq_true, decide_eq_true_eq]
      omega
    rw [validateUtf8, if_neg (by omega), if_pos hw2, validateCont2, if_pos hcont]
  split
  · rename_i h1 h2 h3
    show validateUtf8
        ((0xE0 + c / 4096) :: (0x80 + c / 64 % 64) :: (0x80 + c % 64) :: tail) i =
      validateUtf8 tail (i + 3)
    have hw3 : utf8CharWidth (0xE0 + c / 4096) = 3 := by
      unfold utf8CharWidth
      rw [if_neg (by omega), if_neg (by omega), if_neg (by omega), if_pos (by omega)]
    have hv3 : utf8Valid3 (0xE0 + c / 4096) (0x80 + c / 64 % 64) = true := by
      simp only [utf8Valid3, Bool.or_eq_true, Bool.and_eq_true, decide_eq_true_eq]
      omega
    have hcont : isCont (0x80 + c % 64) = true := by
      simp only [isCont, Bool.and_eq_true, decide_eq_true_eq]
      omega
    rw [validateUtf8, if_neg (by omega), if_neg (by simp [hw3]), if_pos hw3,
      validateCont3, if_pos (by rw [hv3, hcont]; rfl)]
  · rename_i h1 h2 h3
    show validateUtf8
        ((0xF0 + c / 262144) :: (0x80 + c / 4096 % 64) ::
          (0x80 + c / 64 % 64) :: (0x80 + c % 64) :: tail) i =
      validateUtf8 tail (i + 4)
    have hc4 : c < 0x110000 := by omega
    have hw4 : utf8CharWidth (0xF0 + c / 262144) = 4 := by
      unfold utf8CharWidth
      rw [if_neg (by omega), if_neg (by omega), if_neg (by omega),
        if_neg (by omega), if_pos (by omega)]
    have hv4 : utf8Valid4 (0xF0 + c / 262144) (0x80 + c / 4096 % 64) = true := by
      simp only [utf8Valid4, Bool.or_eq_true, Bool.and_eq_true, decide_eq_true_eq]
      omega
    have hcont1 : isCont (0x80 + c / 64 % 64) = true := by
      simp only [isCont, Bool.and_eq_true, decide_eq_true_eq]
      omega
    have hcont2 : isCont (0x80 + c % 64) = true := by
      simp only [isCont, Bool.and_eq_true, decide_eq_true_eq]
      omega
    rw [validateUtf8, if_neg (by omega), if_neg (by simp [hw4]),
      if_neg (by simp [hw4]), if_pos hw4, validateCont4,
      if_pos (by rw [hv4, hcont1, hcont2]; rfl)]

theorem validateUtf8_flatten_encode (cps : List Nat)
    (hs : ∀ c ∈ cps, ScalarValue c) :
    ∀ i, validateUtf8 (cps.map utf8EncodeChar).flatten i = none := by
  induction cps with
  | nil =>
    intro i
    rw [show (List.map utf8EncodeChar []).flatten = ([] : List Nat) from rfl,
      validateUtf8]
  | cons c rest ih =>
    intro i
    simp only [List.map_cons, List.flatten_cons]
    rw [validateUtf8_encodeChar c (hs c (List.mem_cons_self c rest))]
    exact ih (fun x hx => hs x (List.mem_cons_of_mem _ hx)) _

theorem utf8CharWidth_eq_two {b : Nat} (h : utf8CharWidth b = 2) :
    0xC2 ≤ b ∧ b < 0xE0 := by
  unfold utf8CharWidth at h
  split at h
  · exact absurd h (by omega)
  split at h
  · exact absurd h (by omega)
  split at h
  · constructor <;> omega
  split at h
  · exact absurd h (by omega)
  split at h
  · exact absurd h (by omega)
  · exact absurd h (by omega)

theorem utf8CharWidth_eq_three {b : Nat} (h : utf8CharWidth b = 3) :
    0xE0 ≤ b ∧ b < 0xF0 := by
  unfold utf8CharWidth at h
  split at h
  · exact absurd h (by omega)
  split at h
  · exact absurd h (by omega)
  split at h
  · exact absurd h (by omega)
  split at h
  · constructor <;> omega
  split at h
  · exact absurd h (by omega)
  · exact absurd h (by omega)

theorem utf8CharWidth_eq_four {b : Nat} (h : utf8CharWidth b = 4) :
    0xF0 ≤ b ∧ b < 0xF5 := by
  unfold utf8CharWidth at h
  split at h
  · exact absurd h (by omega)
  split at h
  · exact absurd h (by omega)
  split at h
  · exact absurd h (by omega)
  split at h
  · exact absurd h (by omega)
  split at h
  · constructor <;> omega
  · exact absurd h (by omega)

theorem isUtf8_of_validateUtf8 :
    ∀ (n : Nat) (bytes : List Nat), bytes.length ≤ n →
      ∀ i, validateUtf8 bytes i = none → IsUtf8 bytes := by
  intro n
  induction n with
  | zero =>
    intro bytes hlen i hv
    have hb : bytes = [] := List.eq_nil_of_length_eq_zero (by omega)
    subst hb
    exact ⟨[], by simp, rfl⟩
  | succ n ih =>
    intro bytes hlen i hv
    rcases bytes with _ | ⟨b, rest⟩
    · exact ⟨[], by simp, rfl⟩
    simp only [List.length_cons] at hlen
    rw [validateUtf8] at hv
    by_cases h1 : b < 0x80
    · rw [if_pos h1] at hv
      obtain ⟨cps, hsc, henc⟩ := ih rest (by omega) (i + 1) hv
      refine ⟨b :: cps, ?_, ?_⟩
      · intro x hx
        rcases List.mem_cons.mp hx with rfl | hx
        · exact Or.inl (by omega)
        · exact hsc x hx
      · simp only [List.map_cons, List.flatten_cons]
        rw [show utf8EncodeChar b = [b] from by
          unfold utf8EncodeChar; rw [if_pos h1]]
        rw [henc]
        rfl
    rw [if_neg h1] at hv
    by_cases h2 : utf8CharWidth b = 2
    · rw [if_pos h2] at hv
      rcases rest with _ | ⟨c, rest2⟩
      · rw [validateCont2] at hv; cases hv
      rw [validateCont2] at hv
      by_cases hc : isCont c = true
      case neg => rw [if_neg hc] at hv; cases hv
      rw [if_pos hc] at hv
      simp only [List.length_cons] at hlen
      obtain ⟨cps, hsc, henc⟩ := ih rest2 (by omega) (i + 2) hv
      obtain ⟨hb1, hb2⟩ := utf8CharWidth_eq_two h2
      simp only [isCont, Bool.and_eq_true, decide_eq_true_eq] at hc
      refine ⟨((b - 0xC0) * 64 + (c - 0x80)) :: cps, ?_, ?_⟩
      · intro x hx
        rcases List.mem_cons.mp hx with rfl | hx
        · exact Or.inl (by omega)
        · exact hsc x hx
      · simp only [List.map_cons, List.flatten_cons]
        rw [show utf8EncodeChar ((b - 0xC0) * 64 + (c - 0x80)) = [b, c] from by
          unfold utf8EncodeChar
          rw [if_neg (by omega), if_pos (by omega)]
          have e1 : ((b - 0xC0) * 64 + (c - 0x80)) / 64 = b - 0xC0 := by omega
          have e2 : ((b - 0xC0) * 64 + (c - 0x80)) % 64 = c - 0x80 := by omega
          rw [e1, e2]
          simp only [List.cons.injEq, and_true]
          exact ⟨by omega, by omega⟩]
        rw [henc]
        rfl
    rw [if_neg h2] at hv
    by_cases h3 : utf8CharWidth b = 3
    · rw [if_pos h3] at hv
      rcases rest with _ | ⟨c, rest'⟩
      · simp [validateCont3] at hv
      rcases rest' with _ | ⟨d, rest3⟩
      · simp [validateCont3] at hv
      rw [validateCont3] at hv
      by_cases hcd : (utf8Valid3 b c && isCont d) = true
      case neg => rw [if_neg hcd] at hv; cases hv
      rw [if_pos hcd] at hv
      simp only [List.length_cons] at hlen
      obtain ⟨cps, hsc, henc⟩ := ih rest3 (by omega) (i + 3) hv
      obtain ⟨hb1, hb2⟩ := utf8CharWidth_eq_three h3
      simp only [Bool.and_eq_true, utf8Valid3, Bool.or_eq_true, isCont,
        decide_eq_true_eq] at hcd
      obtain ⟨hv3, hd⟩ := hcd
      refine ⟨((b - 0xE0) * 4096 + (c - 0x80) * 64 + (d - 0x80)) :: cps, ?_, ?_⟩
      · intro x hx
        rcases List.mem_cons.mp hx with rfl | hx
        · unfold ScalarValue
          omega
        · exact hsc x hx
      · simp only [List.map_cons, List.flatten_cons]
        rw [show utf8EncodeChar ((b - 0xE0) * 4096 + (c - 0x80) * 64 + (d - 0x80)) =
            [b, c, d] from by
          unfold utf8EncodeChar
          rw [if_neg (by omega), if_neg (by omega), if_pos (by omega)]
          have e1 : ((b - 0xE0) * 4096 + (c - 0x80) * 64 + (d - 0x80)) / 4096 =
              b - 0xE0 := by omega
          have e2 : ((b - 0xE0) * 4096 + (c - 0x80) * 64 + (d - 0x80)) / 64 % 64 =
              c - 0x80 := by omega
          have e3 : ((b - 0xE0) * 4096 + (c - 0x80) * 64 + (d - 0x80)) % 64 =
              d - 0x80 := by omega
          rw [e1, e2, e3]
          simp only [List.cons.injEq, and_true]
          exact ⟨by omega, by omega, by omega⟩]
        rw [henc]
        rfl
    rw [if_neg h3] at hv
    by_cases h4 : utf8CharWidth b = 4
    · rw [if_pos h4] at hv
      rcases rest with _ | ⟨c, rest'⟩
      · simp [validateCont4] at hv
      rcases rest' with _ | ⟨d, rest''⟩
      · simp [validateCont4] at hv
      rcases rest'' with _ | ⟨e, rest4⟩
      · simp [validateCont4] at hv
      rw [validateCont4] at hv
      by_cases hcde : (utf8Valid4 b c && isCont d && isCont e) = true
      case neg => rw [if_neg hcde] at hv; cases hv
      rw [if_pos hcde] at hv
      simp only [List.length_cons] at hlen
      obtain ⟨cps, hsc, henc⟩ := ih rest4 (by omega) (i + 4) hv
      obtain ⟨hb1, hb2⟩ := utf8CharWidth_eq_four h4
      simp only [Bool.and_eq_true, utf8Valid4, Bool.or_eq_true, isCont,
        decide_eq_true_eq] at hcde
      obtain ⟨⟨hv4, hd⟩, he⟩ := hcde
      refine ⟨((b - 0xF0) * 262144 + (c - 0x80) * 4096 + (d - 0x80) * 64 +
        (e - 0x80)) :: cps, ?_, ?_⟩
      · intro x hx
        rcases List.mem_cons.mp hx with rfl | hx
        · unfold ScalarValue
          omega
        · exact hsc x hx
      · simp only [List.map_cons, List.flatten_cons]
        rw [show utf8EncodeChar ((b - 0xF0) * 262144 + (c - 0x80) * 4096 +
            (d - 0x80) * 64 + (e - 0x80)) = [b, c, d, e] from by
          unfold utf8EncodeChar
          rw [if_neg (by omega), if_neg (by omega), if_neg (by omega)]
          have e1 : ((b - 0xF0) * 262144 + (c - 0x80) * 4096 + (d - 0x80) * 64 +
              (e - 0x80)) / 262144 = b - 0xF0 := by omega
          have e2 : ((b - 0xF0) * 262144 + (c - 0x80) * 4096 + (d - 0x80) * 64 +
              (e - 0x80)) / 4096 % 64 = c - 0x80 := by omega
          have e3 : ((b - 0xF0) * 262144 + (c - 0x80) * 4096 + (d - 0x80) * 64 +
              (e - 0x80)) / 64 % 64 = d - 0x80 := by omega
          have e4 : ((b - 0xF0) * 262144 + (c - 0x80) * 4096 + (d - 0x80) * 64 +
              (e - 0x80)) % 64 = e - 0x80 := by omega
          rw [e1, e2, e3, e4]
          simp only [List.cons.injEq, and_true]
          exact ⟨by omega, by omega, by omega, by omega⟩]
        rw [henc]
        rfl
    rw [if_neg h4] at hv
    cases hv

/-- The validation loop accepts exactly the UTF-8 byte sequences, for
every starting offset. -/
theorem validateUtf8_iff (bytes : List Nat) (i : Nat) :
    validateUtf8 bytes i = none ↔ IsUtf8 bytes := by
  constructor
  · exact fun hv => isUtf8_of_validateUtf8 bytes.length bytes le_rfl i hv
  · rintro ⟨cps, hs, henc⟩
    rw [← henc]
    exact validateUtf8_flatten_encode cps hs i

/-- C8: `String::decode` interprets the whole input slice as UTF-8, for
every size representation: when the bytes are the UTF-8 encoding of some
scalar-value sequence (of any length) it succeeds with the string of
exactly those bytes, and otherwise it fails with a text-decoding error
carrying the underlying `Utf8Error`; no other outcome exists. -/
theorem c8_string_decode (w : Nat) (bytes : List Nat) :
    (IsUtf8 bytes → decode w .tStr bytes = .ok (.vStr bytes)) ∧
    (¬ IsUtf8 bytes →
      ∃ e : Utf8Error, decode w .tStr bytes = .err (.StringDecodeUtf8Error e)) := by
  constructor
  · intro h
    have hv : validateUtf8 bytes 0 = none := (validateUtf8_iff bytes 0).mpr h
    rw [decode, hv]
  · intro h
    rcases hv : validateUtf8 bytes 0 with _ | e
    · exact absurd ((validateUtf8_iff bytes 0).mp hv) h
    · exact ⟨e, by rw [decode, hv]⟩

/-- Witness for C8: the ASCII bytes of `"hi!"` decode to themselves. -/
theorem c8_string_decode_witness :
    IsUtf8 [104, 105, 33] ∧
    decode 4 .tStr [104, 105, 33] = .ok (.vStr [104, 105, 33]) := by
  have h : IsUtf8 [104, 105, 33] :=
    ⟨[104, 105, 33], by decide, by decide⟩
  exact ⟨h, (c8_string_decode 4 [104, 105, 33]).1 h⟩

/-! ## Claim C5: the `len * w` size-field pre-check wraps on `usize`

`validate_collection!` computes `sizes_len = len * Size::get_size_of()`
with an unchecked `usize` multiplication.  With `Size = u64` a declared
count of `2^61` makes `len * 8` wrap to 0, the "buffer holds the size
fields" comparison spuriously passes, and the first size-field read slices
out of bounds: the decoder panics instead of returning the `MoreThan` error
the claim promises for a buffer too short to hold the declared size
fields. -/
theorem c5_truncation_panic :
    leBytes 8 (2 ^ 61) = [0, 0, 0, 0, 0, 0, 0, 32] ∧
    2 ^ 61 * 8 % usizeMod = 0 ∧
    decode 8 (.tVec (.tU 1)) [0, 0, 0, 0, 0, 0, 0, 32] = .panic := by
  refine ⟨by decide, by decide, ?_⟩
  rw [decode]
  have h : decodeCollection 8 (fun bs => decode 8 (.tU 1) bs)
      [0, 0, 0, 0, 0, 0, 0, 32] = .panic := by
    rw [decodeCollection]
    rw [if_pos (by norm_num)]
    have h1 : leToNat (([0, 0, 0, 0, 0, 0, 0, 32] : List Nat).take 8) = 2 ^ 61 := by
      decide
    rw [h1]
    have h2 : (2:Nat) ^ 61 * 8 % usizeMod = 0 := by decide
    rw [h2]
    rw [if_pos (by norm_num)]
    have h3 : readSizes 8 [0, 0, 0, 0, 0, 0, 0, 32] 8 (2 ^ 61) = .panic := by
      have he : (2:Nat) ^ 61 = 2305843009213693951 + 1 := by norm_num
      rw [he, readSizes, if_neg (by norm_num)]
    rw [h3]
  rw [h]
  rfl

/-! ## Claim C9: the body-size fold wraps on `usize`

The decode-side fold `sizes.fold(0, |acc, size| acc + size.as_usize())` is
plain (wrapping) `usize` addition, not checked addition.  With `Size = u64`
a 2-tuple whose declared position sizes are `2^64 - 1` and `1` folds to 0,
which spuriously equals the empty remaining buffer, and slicing the first
position's body then panics. -/
theorem c9_body_size_fold_wraps :
    bodySizeFold [2 ^ 64 - 1, 1] = 0 ∧
    (2 ^ 64 - 1) + 1 = 2 ^ 64 ∧
    decode 8 (.tTuple [.tU 1, .tU 1])
      (leBytes 8 (2 ^ 64 - 1) ++ leBytes 8 1) = .panic := by
  refine ⟨by decide, by norm_num, ?_⟩
  rw [decode]
  rw [decodersOf, decodersOf, decodersOf]
  have hbytes : leBytes 8 (2 ^ 64 - 1) ++ leBytes 8 1 =
      [255, 255, 255, 255, 255, 255, 255, 255, 1, 0, 0, 0, 0, 0, 0, 0] := by
    decide
  rw [hbytes]
  have hread : readTupleSizes 8
      [255, 255, 255, 255, 255, 255, 255, 255, 1, 0, 0, 0, 0, 0, 0, 0] 0
      ([fun b => decode 8 (.tU 1) b, fun b => decode 8 (.tU 1) b] :
        List (List Nat → RtResult Val)).length = .ok [2 ^ 64 - 1, 1] := by
    rw [show ([fun b => decode 8 (.tU 1) b, fun b => decode 8 (.tU 1) b] :
        List (List Nat → RtResult Val)).length = 2 from rfl]
    rw [readTupleSizes, if_pos (by norm_num)]
    rw [readTupleSizes, if_pos (by norm_num)]
    rw [readTupleSizes]
    decide
  rw [decodeTuple, hread]
  dsimp only
  have hfold : bodySizeFold [2 ^ 64 - 1, 1] = 0 := by decide
  rw [hfold]
  rw [if_pos (by decide)]
  rw [decodeTupleElems, if_neg (by norm_num)]
  rfl

/-- Witness for C10 at `Size = u32` on an arbitrary garbage buffer. -/
theorem c10_unit_witness :
    (0:Nat) < 4 ∧
    (get_size 4 .vUnit = some 0 ∧
      encode 4 .vUnit = .ok (leBytes 4 0) ∧
      (leBytes 4 0).length = 4 ∧ (4:Nat) ≠ 0 ∧
      decode 4 .tUnit [9, 9, 9] = .ok .vUnit) := by
  exact ⟨by norm_num, c10_unit 4 (by norm_num) [9, 9, 9]⟩

end Bytevec
